import Mathlib

/-!
# Verification of the `v3math` 3D vector library

This file gives a shallow embedding of the C library `v3math.c` (functions
`v3_from_points`, `v3_add`, `v3_subtract`, `v3_dot_product`,
`v3_cross_product`, `v3_length`, `v3_normalize`, `v3_angle_quick`,
`v3_angle`, `v3_reflect`, `v3_equals`) and proves properties of it.

The C type `float` (IEEE-754 binary32) is modelled by the type `F32` below:
NaN and the two infinities are explicit constructors and finite values carry
their exact rational value.  Arithmetic is exact rational arithmetic followed
by round-to-nearest-even into the binary32 grid (precision 24, minimum
exponent -126, i.e. subnormal quantum 2^-149, overflow threshold 2^128),
which is exactly the IEEE semantics of `+`, `-`, `*`, `/` and `sqrtf` on
binary32.  The rounding function is executable (structural recursion only)
so that concrete computations can be settled by `decide`.
-/

namespace V3Math

/-! ## Integer helpers: floor log2 and floor sqrt, by structural recursion -/

/-- Fuel-driven floor of the base-2 logarithm: `natLog2F f n = ⌊log₂ n⌋`
provided `n < 2^f` (and `0 < n`). -/
def natLog2F : ℕ → ℕ → ℕ
  | 0, _ => 0
  | _ + 1, 0 => 0
  | _ + 1, 1 => 0
  | f + 1, n + 2 => natLog2F f ((n + 2) / 2) + 1

/-- Floor of the base-2 logarithm (total: fuel `n` always suffices). -/
def natLog2 (n : ℕ) : ℕ := natLog2F n n

/-- Fuel-driven integer square root: `isqrtF f n = ⌊√n⌋` provided `n < 4^f`. -/
def isqrtF : ℕ → ℕ → ℕ
  | 0, _ => 0
  | _ + 1, 0 => 0
  | _ + 1, 1 => 1
  | _ + 1, 2 => 1
  | _ + 1, 3 => 1
  | f + 1, n + 4 =>
    let r := 2 * isqrtF f ((n + 4) / 4)
    if (r + 1) * (r + 1) ≤ n + 4 then r + 1 else r

/-- Integer square root (total: fuel `n` always suffices). -/
def isqrtN (n : ℕ) : ℕ := isqrtF n n

/-! ## Rational helpers -/

/-- `2^e` as a rational, for an integer exponent. -/
def qpow2 (e : ℤ) : ℚ :=
  if 0 ≤ e then ((2 ^ e.toNat : ℕ) : ℚ) else 1 / ((2 ^ (-e).toNat : ℕ) : ℚ)

/-- Round a rational to the nearest integer, ties to even. -/
def rne (q : ℚ) : ℤ :=
  let n := ⌊q⌋
  let r := q - (n : ℚ)
  if r < 1 / 2 then n
  else if 1 / 2 < r then n + 1
  else if 2 ∣ n then n else n + 1

/-- Floor of the base-2 logarithm of a positive rational. -/
def qlog2 (a : ℚ) : ℤ :=
  let e : ℤ := (natLog2 a.num.toNat : ℤ) - (natLog2 a.den : ℤ)
  if qpow2 e ≤ a then e else e - 1

/-- Nearest integer to `√a / Q` (ties to even), for `a ≥ 0`, `Q > 0`;
computed exactly by comparing squares. -/
def rneSqrt (a Q : ℚ) : ℤ :=
  let t : ℚ := a / (Q * Q)
  let n0 : ℕ := isqrtN ⌊t⌋.toNat
  if t < ((n0 : ℚ) + 1 / 2) ^ 2 then (n0 : ℤ)
  else if ((n0 : ℚ) + 1 / 2) ^ 2 < t then (n0 : ℤ) + 1
  else if 2 ∣ n0 then (n0 : ℤ) else (n0 : ℤ) + 1

/-! ## The binary32 model -/

/-- Model of a C `float` (IEEE-754 binary32).  `fin q` is a finite value of
exact rational value `q`; the sign argument of `inf` is `true` for `-∞`.
(The model does not distinguish `-0.0` from `0.0`; no modelled operation of
the library distinguishes them.) -/
inductive F32 where
  | nan : F32
  | inf : Bool → F32
  | fin : ℚ → F32
deriving DecidableEq

/-- Round a positive rational to binary32, round-to-nearest-even.
The first regime (`n149 ≤ 2^24`) covers magnitudes up to `2^-125`-ish with
the subnormal quantum `2^-149`; the second regime is a normal number with a
24-bit significand, with overflow to `+∞` at `2^128`. -/
def roundPos (a : ℚ) : F32 :=
  let n149 := rne (a * 2 ^ 149)
  if n149 ≤ 2 ^ 24 then F32.fin ((n149 : ℚ) / 2 ^ 149)
  else
    let e := qlog2 a
    let n := rne (a * qpow2 (23 - e))
    if (2 : ℚ) ^ 128 ≤ (n : ℚ) * qpow2 (e - 23) then F32.inf false
    else F32.fin ((n : ℚ) * qpow2 (e - 23))

/-- Negation on the model. -/
def F32.negF : F32 → F32
  | .nan => .nan
  | .inf s => .inf (!s)
  | .fin q => .fin (-q)

/-- Round any rational to binary32 (round-to-nearest-even). -/
def roundQ (x : ℚ) : F32 :=
  if x = 0 then F32.fin 0
  else if 0 < x then roundPos x
  else (roundPos (-x)).negF

/-- Correctly rounded square root of a positive rational into binary32. -/
def sqrtPos (a : ℚ) : F32 :=
  let n149 := rneSqrt a (1 / 2 ^ 149)
  if n149 ≤ 2 ^ 24 then F32.fin ((n149 : ℚ) / 2 ^ 149)
  else
    let e := (qlog2 a).fdiv 2
    let n := rneSqrt a (qpow2 (e - 23))
    if (2 : ℚ) ^ 128 ≤ (n : ℚ) * qpow2 (e - 23) then F32.inf false
    else F32.fin ((n : ℚ) * qpow2 (e - 23))

/-- The value produced by `roundPos` in its normal regime (used to state
exact scaling laws). -/
def roundVal (a : ℚ) : ℚ :=
  (rne (a * qpow2 (23 - qlog2 a)) : ℚ) * qpow2 (qlog2 a - 23)

/-- The value produced by `sqrtPos` in its normal regime (used to state
exact scaling laws). -/
def sqrtVal (a : ℚ) : ℚ :=
  (rneSqrt a (qpow2 ((qlog2 a).fdiv 2 - 23)) : ℚ) *
    qpow2 ((qlog2 a).fdiv 2 - 23)

/-- IEEE addition. -/
def F32.addF : F32 → F32 → F32
  | .nan, _ => .nan
  | _, .nan => .nan
  | .inf s, .inf t => if s = t then .inf s else .nan
  | .inf s, .fin _ => .inf s
  | .fin _, .inf t => .inf t
  | .fin a, .fin b => roundQ (a + b)

/-- IEEE subtraction. -/
def F32.subF : F32 → F32 → F32
  | .nan, _ => .nan
  | _, .nan => .nan
  | .inf s, .inf t => if s = t then .nan else .inf s
  | .inf s, .fin _ => .inf s
  | .fin _, .inf t => .inf (!t)
  | .fin a, .fin b => roundQ (a - b)

/-- IEEE multiplication (`∞ · 0 = NaN`). -/
def F32.mulF : F32 → F32 → F32
  | .nan, _ => .nan
  | _, .nan => .nan
  | .inf s, .inf t => .inf (xor s t)
  | .inf s, .fin b => if b = 0 then .nan else .inf (xor s (b < 0))
  | .fin a, .inf t => if a = 0 then .nan else .inf (xor (a < 0) t)
  | .fin a, .fin b => roundQ (a * b)

/-- IEEE division (`∞/∞ = NaN`, `0/0 = NaN`, `x/0 = ±∞`, `x/∞ = 0`). -/
def F32.divF : F32 → F32 → F32
  | .nan, _ => .nan
  | _, .nan => .nan
  | .inf _, .inf _ => .nan
  | .inf s, .fin b => .inf (xor s (b < 0))
  | .fin _, .inf _ => .fin 0
  | .fin a, .fin b =>
    if b = 0 then (if a = 0 then .nan else .inf (a < 0))
    else roundQ (a / b)

/-- IEEE `sqrtf` (`√(-x) = NaN` for `x > 0`, `√(+∞) = +∞`). -/
def F32.sqrtF : F32 → F32
  | .nan => .nan
  | .inf s => if s then .nan else .inf false
  | .fin a => if a < 0 then .nan else if a = 0 then .fin 0 else sqrtPos a

/-- IEEE `fabsf`. -/
def F32.absF : F32 → F32
  | .nan => .nan
  | .inf _ => .inf false
  | .fin a => .fin |a|

/-- IEEE `<` (any comparison with NaN is false). -/
def F32.ltF : F32 → F32 → Bool
  | .nan, _ => false
  | _, .nan => false
  | .inf s, .inf t => s && !t
  | .inf s, .fin _ => s
  | .fin _, .inf t => !t
  | .fin a, .fin b => decide (a < b)

/-- IEEE `<=` (any comparison with NaN is false). -/
def F32.leF : F32 → F32 → Bool
  | .nan, _ => false
  | _, .nan => false
  | .inf s, .inf t => s == t || (s && !t)
  | .inf s, .fin _ => s
  | .fin _, .inf t => !t
  | .fin a, .fin b => decide (a ≤ b)

/-- IEEE `==` (NaN is not equal to anything, including itself). -/
def F32.beq : F32 → F32 → Bool
  | .nan, _ => false
  | _, .nan => false
  | .inf s, .inf t => s == t
  | .inf _, .fin _ => false
  | .fin _, .inf _ => false
  | .fin a, .fin b => decide (a = b)

/-- C `isfinite`. -/
def F32.isFinite : F32 → Bool
  | .fin _ => true
  | _ => false

/-- C `isnan`. -/
def F32.isNaN : F32 → Bool
  | .nan => true
  | _ => false

/-! ## The vector type and the library operations

Each C function of `v3math.c` is embedded (NULL-pointer guards excluded:
the model's arguments are values, so the guards' condition is always false).
Operations that call `v3_error` on their edge case return a `Bool` that is
`true` exactly when `v3_error` was called. -/

/-- A 3-component float vector (the C `float[3]`). -/
structure V3 where
  x : F32
  y : F32
  z : F32
deriving DecidableEq

/-- The zero vector. -/
def v3zero : V3 := ⟨F32.fin 0, F32.fin 0, F32.fin 0⟩

/-- `clampf` from `v3math.c`: `if (x < lo) return lo; if (x > hi) return hi;
return x;`. -/
def clampf (x lo hi : F32) : F32 :=
  if x.ltF lo then lo else if hi.ltF x then hi else x

/-- `v3_from_points`: `dst = b - a`, componentwise, inputs snapshotted. -/
def v3_from_points (a b : V3) : V3 :=
  ⟨b.x.subF a.x, b.y.subF a.y, b.z.subF a.z⟩

/-- `v3_add`: componentwise `a + b`. -/
def v3_add (a b : V3) : V3 :=
  ⟨a.x.addF b.x, a.y.addF b.y, a.z.addF b.z⟩

/-- `v3_subtract`: componentwise `a - b`. -/
def v3_subtract (a b : V3) : V3 :=
  ⟨a.x.subF b.x, a.y.subF b.y, a.z.subF b.z⟩

/-- `v3_dot_product`: `a[0]*b[0] + a[1]*b[1] + a[2]*b[2]` (C evaluation:
left-associated sums). -/
def v3_dot_product (a b : V3) : F32 :=
  ((a.x.mulF b.x).addF (a.y.mulF b.y)).addF (a.z.mulF b.z)

/-- `v3_cross_product` (inputs snapshotted into locals before writing). -/
def v3_cross_product (a b : V3) : V3 :=
  ⟨(a.y.mulF b.z).subF (a.z.mulF b.y),
   (a.z.mulF b.x).subF (a.x.mulF b.z),
   (a.x.mulF b.y).subF (a.y.mulF b.x)⟩

/-- `v3_length`: `sqrtf(x*x + y*y + z*z)`. -/
def v3_length (a : V3) : F32 :=
  (((a.x.mulF a.x).addF (a.y.mulF a.y)).addF (a.z.mulF a.z)).sqrtF

/-- `v3_normalize`.  The C code computes `len = sqrtf(x*x + y*y + z*z)`
inline — the identical expression to `v3_length`'s body, so it is written
via `v3_length` here; on `len == 0.0f || !isfinite(len)` it reports an
error and writes the zero vector, otherwise it writes `a * (1.0f/len)`.
The second component of the result is `true` iff `v3_error` was called. -/
def v3_normalize (a : V3) : V3 × Bool :=
  let len := v3_length a
  if len.beq (F32.fin 0) || !len.isFinite then (v3zero, true)
  else
    let inv := (F32.fin 1).divF len
    (⟨a.x.mulF inv, a.y.mulF inv, a.z.mulF inv⟩, false)

/-- `v3_angle_quick`: NaN (after an error report) if either length is zero
or non-finite, otherwise `clampf(dot/(la*lb), -1, 1)`. -/
def v3_angle_quick (a b : V3) : F32 :=
  let la := v3_length a
  let lb := v3_length b
  if la.beq (F32.fin 0) || lb.beq (F32.fin 0) || !la.isFinite || !lb.isFinite
  then F32.nan
  else clampf ((v3_dot_product a b).divF (la.mulF lb)) (F32.fin (-1)) (F32.fin 1)

/-- `v3_angle`: `cosv = v3_angle_quick(a,b); if (!isfinite(cosv)) return NAN;
return acosf(cosv);`.  `acosf` is an unspecified parameter: the claims about
`v3_angle` hold for every choice of it. -/
def v3_angle (acosf : F32 → F32) (a b : V3) : F32 :=
  let cosv := v3_angle_quick a b
  if !cosv.isFinite then F32.nan else acosf cosv

/-- `v3_reflect`: normalizes `n` into a local `nn`; if `nn` has zero or
non-finite length it reports an error and copies `v` to `dst`, else computes
`dst = v - 2*dot(v,nn)*nn` from snapshotted reads of `v`.  The `Bool` is
`true` iff `v3_reflect` itself called `v3_error`. -/
def v3_reflect (v n : V3) : V3 × Bool :=
  let nn := (v3_normalize n).1
  let nn_len := v3_length nn
  if nn_len.beq (F32.fin 0) || !nn_len.isFinite then (v, true)
  else
    let dotvn := ((v.x.mulF nn.x).addF (v.y.mulF nn.y)).addF (v.z.mulF nn.z)
    (⟨v.x.subF (((F32.fin 2).mulF dotvn).mulF nn.x),
      v.y.subF (((F32.fin 2).mulF dotvn).mulF nn.y),
      v.z.subF (((F32.fin 2).mulF dotvn).mulF nn.z)⟩, false)

/-- `v3_equals`: sign-normalizes the tolerance, then compares
`fabsf(a[i]-b[i]) <= tolerance` for the three components. -/
def v3_equals (a b : V3) (tolerance : F32) : Bool :=
  let tol := if tolerance.ltF (F32.fin 0) then tolerance.negF else tolerance
  ((a.x.subF b.x).absF.leF tol) && ((a.y.subF b.y).absF.leF tol) &&
    ((a.z.subF b.z).absF.leF tol)

/-! ## Memory-level embedding

The C functions receive pointers, and the destination may alias a source.
A memory is a map from buffer names to 3-float buffers, addressed at
component granularity; each C statement is embedded in source order, reads
before the writes of the same statement. -/

section Memory

variable {β : Type} [DecidableEq β]

/-- Write one component of one buffer. -/
def wr (σ : β → Fin 3 → F32) (p : β) (i : Fin 3) (x : F32) : β → Fin 3 → F32 :=
  fun q j => if q = p ∧ j = i then x else σ q j

/-- Read a whole buffer as a `V3`. -/
def rd3 (σ : β → Fin 3 → F32) (p : β) : V3 := ⟨σ p 0, σ p 1, σ p 2⟩

/-- `v3_from_points(dst, a, b)` on memory: the C body reads all six input
components into locals first ("overlap-safe"), then writes `dst[0..2]`. -/
def v3_from_points_mem (σ : β → Fin 3 → F32) (dst a b : β) : β → Fin 3 → F32 :=
  let a0 := σ a 0; let a1 := σ a 1; let a2 := σ a 2
  let b0 := σ b 0; let b1 := σ b 1; let b2 := σ b 2
  let σ1 := wr σ dst 0 (b0.subF a0)
  let σ2 := wr σ1 dst 1 (b1.subF a1)
  wr σ2 dst 2 (b2.subF a2)

/-- `v3_add(dst, a, b)` on memory (inputs snapshotted, then writes). -/
def v3_add_mem (σ : β → Fin 3 → F32) (dst a b : β) : β → Fin 3 → F32 :=
  let a0 := σ a 0; let a1 := σ a 1; let a2 := σ a 2
  let b0 := σ b 0; let b1 := σ b 1; let b2 := σ b 2
  let σ1 := wr σ dst 0 (a0.addF b0)
  let σ2 := wr σ1 dst 1 (a1.addF b1)
  wr σ2 dst 2 (a2.addF b2)

/-- `v3_subtract(dst, a, b)` on memory (inputs snapshotted, then writes). -/
def v3_subtract_mem (σ : β → Fin 3 → F32) (dst a b : β) : β → Fin 3 → F32 :=
  let a0 := σ a 0; let a1 := σ a 1; let a2 := σ a 2
  let b0 := σ b 0; let b1 := σ b 1; let b2 := σ b 2
  let σ1 := wr σ dst 0 (a0.subF b0)
  let σ2 := wr σ1 dst 1 (a1.subF b1)
  wr σ2 dst 2 (a2.subF b2)

/-- `v3_cross_product(dst, a, b)` on memory ("overlap-safe: store inputs
first", then the three writes). -/
def v3_cross_mem (σ : β → Fin 3 → F32) (dst a b : β) : β → Fin 3 → F32 :=
  let a0 := σ a 0; let a1 := σ a 1; let a2 := σ a 2
  let b0 := σ b 0; let b1 := σ b 1; let b2 := σ b 2
  let σ1 := wr σ dst 0 ((a1.mulF b2).subF (a2.mulF b1))
  let σ2 := wr σ1 dst 1 ((a2.mulF b0).subF (a0.mulF b2))
  wr σ2 dst 2 ((a0.mulF b1).subF (a1.mulF b0))

/-- `v3_normalize(dst, a)` on memory: reads `x, y, z`, computes `len`, then
either writes three zeros (error case) or the three scaled components. -/
def v3_normalize_mem (σ : β → Fin 3 → F32) (dst a : β) : β → Fin 3 → F32 :=
  let x := σ a 0; let y := σ a 1; let z := σ a 2
  let len := (((x.mulF x).addF (y.mulF y)).addF (z.mulF z)).sqrtF
  if len.beq (F32.fin 0) || !len.isFinite then
    let σ1 := wr σ dst 0 (F32.fin 0)
    let σ2 := wr σ1 dst 1 (F32.fin 0)
    wr σ2 dst 2 (F32.fin 0)
  else
    let inv := (F32.fin 1).divF len
    let σ1 := wr σ dst 0 (x.mulF inv)
    let σ2 := wr σ1 dst 1 (y.mulF inv)
    wr σ2 dst 2 (z.mulF inv)

/-- `v3_reflect(dst, v, n)` on memory: `nn` is a local (`float nn[3]`), so
the call `v3_normalize(nn, n)` only reads memory; in the error branch the C
code does `dst[0] = v[0]; dst[1] = v[1]; dst[2] = v[2];`, each read taking
place after the preceding write (modelled exactly: `σ1 v 1`, `σ2 v 2`). -/
def v3_reflect_mem (σ : β → Fin 3 → F32) (dst v n : β) : β → Fin 3 → F32 :=
  let nn := (v3_normalize (rd3 σ n)).1
  let nn_len := v3_length nn
  if nn_len.beq (F32.fin 0) || !nn_len.isFinite then
    let σ1 := wr σ dst 0 (σ v 0)
    let σ2 := wr σ1 dst 1 (σ1 v 1)
    wr σ2 dst 2 (σ2 v 2)
  else
    let vx := σ v 0; let vy := σ v 1; let vz := σ v 2
    let dotvn := ((vx.mulF nn.x).addF (vy.mulF nn.y)).addF (vz.mulF nn.z)
    let σ1 := wr σ dst 0 (vx.subF (((F32.fin 2).mulF dotvn).mulF nn.x))
    let σ2 := wr σ1 dst 1 (vy.subF (((F32.fin 2).mulF dotvn).mulF nn.y))
    wr σ2 dst 2 (vz.subF (((F32.fin 2).mulF dotvn).mulF nn.z))

end Memory

/-- A concrete memory over three buffer names, used as a witness input. -/
def memW : Fin 3 → Fin 3 → F32 := fun p i => F32.fin ((p : ℕ) + 2 * (i : ℕ))

/-- Scale window for the amended numerical claims: a component is zero or
has magnitude between `2^-60` and `2^60`.  Inside this window no square or
intermediate of `v3_length`/`v3_normalize` leaves the normal binary32
range. -/
def windowB : F32 → Bool
  | .fin q => decide (q = 0 ∨ ((1 / 2 ^ 60 : ℚ) ≤ |q| ∧ |q| ≤ 2 ^ 60))
  | _ => false

end V3Math

namespace V3Math

/-! ## Helper lemmas -/

attribute [local semireducible] Rat.mul Rat.inv Rat.add Rat.sub

set_option maxRecDepth 1000000

/-- The length of the zero vector is `0.0f`. -/
theorem v3_length_zero : v3_length v3zero = F32.fin 0 := by decide

/-- The failure branch of `v3_normalize`: on zero or non-finite computed
length it reports the error and outputs the zero vector. -/
theorem v3_normalize_fail (a : V3)
    (h : v3_length a = F32.fin 0 ∨ (v3_length a).isFinite = false) :
    v3_normalize a = (v3zero, true) := by
  have hc : ((v3_length a).beq (F32.fin 0) || !(v3_length a).isFinite) = true := by
    rcases h with h | h
    · rw [h]; rfl
    · rw [h]; simp
  simp only [v3_normalize, hc, if_true]

/-- The success branch of `v3_normalize` is taken exactly when the computed
length is a nonzero finite value. -/
theorem v3_normalize_succ (a : V3) (q : ℚ) (hq : v3_length a = F32.fin q)
    (h0 : q ≠ 0) :
    v3_normalize a =
      (⟨a.x.mulF ((F32.fin 1).divF (F32.fin q)),
        a.y.mulF ((F32.fin 1).divF (F32.fin q)),
        a.z.mulF ((F32.fin 1).divF (F32.fin q))⟩, false) := by
  have hc : ((F32.fin q).beq (F32.fin 0) || !(F32.fin q).isFinite) = false := by
    simp [F32.beq, F32.isFinite, h0]
  simp only [v3_normalize, hq, hc, Bool.false_eq_true, if_false]


/-! ## Memory-level specification lemmas: every operation writes, into its
destination buffer, the pure function of the input values it read, no
matter how the buffer names alias. -/

/-- Reading back `dst` after `v3_from_points_mem` gives the pure result. -/
theorem v3_from_points_mem_spec {β : Type} [DecidableEq β]
    (σ : β → Fin 3 → F32) (dst a b : β) :
    rd3 (v3_from_points_mem σ dst a b) dst = v3_from_points (rd3 σ a) (rd3 σ b) := by
  simp [v3_from_points_mem, v3_from_points, rd3, wr]

/-- Reading back `dst` after `v3_add_mem` gives the pure result. -/
theorem v3_add_mem_spec {β : Type} [DecidableEq β]
    (σ : β → Fin 3 → F32) (dst a b : β) :
    rd3 (v3_add_mem σ dst a b) dst = v3_add (rd3 σ a) (rd3 σ b) := by
  simp [v3_add_mem, v3_add, rd3, wr]

/-- Reading back `dst` after `v3_subtract_mem` gives the pure result. -/
theorem v3_subtract_mem_spec {β : Type} [DecidableEq β]
    (σ : β → Fin 3 → F32) (dst a b : β) :
    rd3 (v3_subtract_mem σ dst a b) dst = v3_subtract (rd3 σ a) (rd3 σ b) := by
  simp [v3_subtract_mem, v3_subtract, rd3, wr]

/-- Reading back `dst` after `v3_cross_mem` gives the pure result. -/
theorem v3_cross_mem_spec {β : Type} [DecidableEq β]
    (σ : β → Fin 3 → F32) (dst a b : β) :
    rd3 (v3_cross_mem σ dst a b) dst = v3_cross_product (rd3 σ a) (rd3 σ b) := by
  simp [v3_cross_mem, v3_cross_product, rd3, wr]

/-- Reading back `dst` after `v3_normalize_mem` gives the pure result. -/
theorem v3_normalize_mem_spec {β : Type} [DecidableEq β]
    (σ : β → Fin 3 → F32) (dst a : β) :
    rd3 (v3_normalize_mem σ dst a) dst = (v3_normalize (rd3 σ a)).1 := by
  simp only [v3_normalize_mem, v3_normalize, v3_length, v3zero, rd3]
  split
  · simp [wr]
  · simp [wr]

/-- Reading back `dst` after `v3_reflect_mem` gives the pure result — also
in the error branch, whose component-by-component copy re-reads `v` from
the partially written memory. -/
theorem v3_reflect_mem_spec {β : Type} [DecidableEq β]
    (σ : β → Fin 3 → F32) (dst v n : β) :
    rd3 (v3_reflect_mem σ dst v n) dst = (v3_reflect (rd3 σ v) (rd3 σ n)).1 := by
  simp only [v3_reflect_mem, v3_reflect, rd3]
  split
  · simp [wr]
  · simp [wr]


/-! ## The claims -/

/-- C1: For every operation that writes a 3-component output buffer
(`fromPoints`, `add`, `subtract`, `cross`, `normalize`, `reflect`), calling
it with the destination buffer aliasing one or both source buffers (left
call: `d`, `a`, `b` arbitrary, so any aliasing pattern) produces the same
output values as calling it with a distinct destination buffer and source
buffers holding identical values (right call: `d'`, `a'`, `b'` arbitrary,
in particular all distinct). -/
theorem C1_overlap_safety {β : Type} [DecidableEq β]
    (σ σ' : β → Fin 3 → F32) (d a b d' a' b' : β)
    (ha : rd3 σ a = rd3 σ' a') (hb : rd3 σ b = rd3 σ' b') :
    rd3 (v3_from_points_mem σ d a b) d = rd3 (v3_from_points_mem σ' d' a' b') d' ∧
    rd3 (v3_add_mem σ d a b) d = rd3 (v3_add_mem σ' d' a' b') d' ∧
    rd3 (v3_subtract_mem σ d a b) d = rd3 (v3_subtract_mem σ' d' a' b') d' ∧
    rd3 (v3_cross_mem σ d a b) d = rd3 (v3_cross_mem σ' d' a' b') d' ∧
    rd3 (v3_normalize_mem σ d a) d = rd3 (v3_normalize_mem σ' d' a') d' ∧
    rd3 (v3_reflect_mem σ d a b) d = rd3 (v3_reflect_mem σ' d' a' b') d' := by
  refine ⟨?_, ?_, ?_, ?_, ?_, ?_⟩
  · rw [v3_from_points_mem_spec, v3_from_points_mem_spec, ha, hb]
  · rw [v3_add_mem_spec, v3_add_mem_spec, ha, hb]
  · rw [v3_subtract_mem_spec, v3_subtract_mem_spec, ha, hb]
  · rw [v3_cross_mem_spec, v3_cross_mem_spec, ha, hb]
  · rw [v3_normalize_mem_spec, v3_normalize_mem_spec, ha]
  · rw [v3_reflect_mem_spec, v3_reflect_mem_spec, ha, hb]

/-- Witness for C1: buffer 0 is both destination and first source in the
left call (full aliasing); the right call uses the distinct destination 2;
the sources hold identical values. -/
theorem C1_overlap_safety_witness :
    rd3 (v3_from_points_mem memW 0 0 1) 0 = rd3 (v3_from_points_mem memW 2 0 1) 2 ∧
    rd3 (v3_add_mem memW 0 0 1) 0 = rd3 (v3_add_mem memW 2 0 1) 2 ∧
    rd3 (v3_subtract_mem memW 0 0 1) 0 = rd3 (v3_subtract_mem memW 2 0 1) 2 ∧
    rd3 (v3_cross_mem memW 0 0 1) 0 = rd3 (v3_cross_mem memW 2 0 1) 2 ∧
    rd3 (v3_normalize_mem memW 0 0) 0 = rd3 (v3_normalize_mem memW 2 0) 2 ∧
    rd3 (v3_reflect_mem memW 0 0 1) 0 = rd3 (v3_reflect_mem memW 2 0 1) 2 :=
  C1_overlap_safety memW memW 0 0 1 2 0 1 rfl rfl

/-- C2: for every input vector whose (computed) Euclidean length is zero or
non-finite, `v3_normalize` signals failure (the `Bool` is `true`: `v3_error`
was called, no abort) and writes the zero vector — not the original. -/
theorem C2_normalize_failure_policy (v : V3)
    (h : v3_length v = F32.fin 0 ∨ (v3_length v).isFinite = false) :
    v3_normalize v = (v3zero, true) :=
  v3_normalize_fail v h

/-- Witness for C2, which is also the claim's "in particular": the zero
vector has length zero and normalizes to the zero vector. -/
theorem C2_normalize_failure_policy_witness :
    v3_length v3zero = F32.fin 0 ∧ v3_normalize v3zero = (v3zero, true) :=
  ⟨by decide, C2_normalize_failure_policy v3zero (Or.inl (by decide))⟩

/-- C3: for every `v` and every normal `n` that normalizes to the zero
vector (zero or non-finite computed length), `v3_reflect` signals failure
(`v3_error` called, no abort) and returns `v` unchanged — not zero. -/
theorem C3_reflect_fallback (v n : V3)
    (h : v3_length n = F32.fin 0 ∨ (v3_length n).isFinite = false) :
    v3_reflect v n = (v, true) := by
  have hn : (v3_normalize n).1 = v3zero := by rw [v3_normalize_fail n h]
  have hz : v3_length v3zero = F32.fin 0 := by decide
  have hc : ((F32.fin 0).beq (F32.fin 0) || !(F32.fin 0).isFinite) = true := by decide
  simp only [v3_reflect, hn, hz, hc, if_true]

/-- Witness for C3: reflecting `(1, 2, 3)` about the zero normal returns
`(1, 2, 3)` with the failure signal. -/
theorem C3_reflect_fallback_witness :
    v3_length v3zero = F32.fin 0 ∧
      v3_reflect ⟨F32.fin 1, F32.fin 2, F32.fin 3⟩ v3zero =
        (⟨F32.fin 1, F32.fin 2, F32.fin 3⟩, true) :=
  ⟨by decide, C3_reflect_fallback _ v3zero (Or.inl (by decide))⟩

/-- C4: whenever `v3_angle_quick` signals failure (returns NaN), `v3_angle`
returns NaN as well, for every possible `acosf` — in particular `acosf` is
never applied to the failure sentinel. -/
theorem C4_angle_propagates_failure (acosf : F32 → F32) (a b : V3)
    (h : (v3_angle_quick a b).isNaN = true) :
    v3_angle acosf a b = F32.nan := by
  have hn : v3_angle_quick a b = F32.nan := by
    cases hq : v3_angle_quick a b
    · rfl
    · rw [hq] at h; simp [F32.isNaN] at h
    · rw [hq] at h; simp [F32.isNaN] at h
  simp [v3_angle, hn, F32.isFinite]

/-- Witness for C4: both vectors zero makes `v3_angle_quick` fail, and
`v3_angle` (with `acosf` taken as the identity map) returns NaN. -/
theorem C4_angle_propagates_failure_witness :
    (v3_angle_quick v3zero v3zero).isNaN = true ∧
      v3_angle id v3zero v3zero = F32.nan :=
  ⟨by decide, C4_angle_propagates_failure id v3zero v3zero (by decide)⟩

/-- C5 as stated is false (see `C5_counterexample`): with finite components
and nonzero lengths the squares can overflow, `v3_angle_quick` then returns
its NaN failure value, which is not in `[-1, 1]`.  Amended claim: for all
`a`, `b`, `v3_angle_quick a b` either is the NaN failure signal or lies in
the closed interval `[-1, 1]` (in the IEEE order). -/
theorem clampf_unit_range (d : F32) :
    (clampf d (F32.fin (-1)) (F32.fin 1)).isNaN = true ∨
      ((F32.fin (-1)).leF (clampf d (F32.fin (-1)) (F32.fin 1)) = true ∧
        (clampf d (F32.fin (-1)) (F32.fin 1)).leF (F32.fin 1) = true) := by
  cases d with
  | nan => left; rfl
  | inf s => cases s <;> right <;> exact ⟨by decide, by decide⟩
  | fin q =>
    unfold clampf
    by_cases h1 : q < -1
    · rw [if_pos (by simpa [F32.ltF] using h1)]
      right; exact ⟨by decide, by decide⟩
    · rw [if_neg (by simpa [F32.ltF] using h1)]
      by_cases h2 : 1 < q
      · rw [if_pos (by simpa [F32.ltF] using h2)]
        right; exact ⟨by decide, by decide⟩
      · rw [if_neg (by simpa [F32.ltF] using h2)]
        right
        simp only [F32.leF, decide_eq_true_eq]
        exact ⟨by linarith, by linarith⟩

/-- Unfolding lemma for `v3_angle_quick` (zeta-reduced form). -/
theorem v3_angle_quick_def (a b : V3) :
    v3_angle_quick a b =
      if (v3_length a).beq (F32.fin 0) || (v3_length b).beq (F32.fin 0) ||
          !(v3_length a).isFinite || !(v3_length b).isFinite
      then F32.nan
      else clampf ((v3_dot_product a b).divF ((v3_length a).mulF (v3_length b)))
        (F32.fin (-1)) (F32.fin 1) := rfl

theorem C5_angle_quick_range (a b : V3) :
    (v3_angle_quick a b).isNaN = true ∨
      ((F32.fin (-1)).leF (v3_angle_quick a b) = true ∧
        (v3_angle_quick a b).leF (F32.fin 1) = true) := by
  rw [v3_angle_quick_def]
  split
  · left; rfl
  · exact clampf_unit_range _

/-- Counterexample to C5 as stated: `a = (2^127, 0, 0)` and `b = (1, 0, 0)`
have finite components and nonzero (both computed and exact) lengths, yet
`v3_angle_quick a b` is NaN (the squares overflow to `+∞`), which is not in
`[-1, 1]`. -/
theorem C5_counterexample :
    ((F32.fin ((2 : ℚ) ^ 127)).isFinite = true ∧ (F32.fin 1).isFinite = true ∧
      (F32.fin 0).isFinite = true) ∧
    v3_length ⟨F32.fin ((2 : ℚ) ^ 127), F32.fin 0, F32.fin 0⟩ ≠ F32.fin 0 ∧
    v3_length ⟨F32.fin 1, F32.fin 0, F32.fin 0⟩ ≠ F32.fin 0 ∧
    (v3_angle_quick ⟨F32.fin ((2 : ℚ) ^ 127), F32.fin 0, F32.fin 0⟩
        ⟨F32.fin 1, F32.fin 0, F32.fin 0⟩).isNaN = true ∧
    ¬ ((F32.fin (-1)).leF (v3_angle_quick ⟨F32.fin ((2 : ℚ) ^ 127), F32.fin 0, F32.fin 0⟩
          ⟨F32.fin 1, F32.fin 0, F32.fin 0⟩) = true ∧
        (v3_angle_quick ⟨F32.fin ((2 : ℚ) ^ 127), F32.fin 0, F32.fin 0⟩
          ⟨F32.fin 1, F32.fin 0, F32.fin 0⟩).leF (F32.fin 1) = true) := by
  decide

/-- C7: `fromPoints(a, b)` is componentwise equal to `subtract(b, a)`; both
compute the displacement `b - a` (they are the same componentwise
float subtractions). -/
theorem C7_from_points_is_subtract (a b : V3) :
    v3_from_points a b = v3_subtract b a := rfl

/-- NaN in either argument of a component comparison makes that component
comparison of `v3_equals` false. -/
theorem equals_factor_nan (x y t : F32)
    (h : x.isNaN = true ∨ y.isNaN = true) :
    (x.subF y).absF.leF t = false := by
  cases x <;> cases y <;>
    first
      | (cases t <;> rfl)
      | simp [F32.isNaN] at h

/-- Unfolding lemma for `v3_equals` (zeta-reduced form). -/
theorem v3_equals_def (a b : V3) (tolerance : F32) :
    v3_equals a b tolerance =
      ((a.x.subF b.x).absF.leF
          (if tolerance.ltF (F32.fin 0) then tolerance.negF else tolerance) &&
        (a.y.subF b.y).absF.leF
          (if tolerance.ltF (F32.fin 0) then tolerance.negF else tolerance) &&
        (a.z.subF b.z).absF.leF
          (if tolerance.ltF (F32.fin 0) then tolerance.negF else tolerance)) := rfl

/-- C9: `v3_equals` returns false whenever any compared component pair
involves a NaN (first conjunct); in particular it is not reflexive: for a
vector with a NaN component, `v3_equals v v tol` is false for every
tolerance (second conjunct). -/
theorem C9_equals_nan :
    (∀ (a b : V3) (tol : F32),
        (a.x.isNaN || a.y.isNaN || a.z.isNaN ||
          b.x.isNaN || b.y.isNaN || b.z.isNaN) = true →
        v3_equals a b tol = false) ∧
    (∀ (v : V3) (tol : F32),
        (v.x.isNaN || v.y.isNaN || v.z.isNaN) = true →
        v3_equals v v tol = false) := by
  have main : ∀ (a b : V3) (tol : F32),
      (a.x.isNaN || a.y.isNaN || a.z.isNaN ||
        b.x.isNaN || b.y.isNaN || b.z.isNaN) = true →
      v3_equals a b tol = false := by
    intro a b tol h
    simp only [Bool.or_eq_true] at h
    rw [v3_equals_def]
    rcases h with ((((hx | hy) | hz) | hbx) | hby) | hbz
    · rw [equals_factor_nan a.x b.x _ (Or.inl hx)]; simp
    · rw [equals_factor_nan a.y b.y _ (Or.inl hy)]; simp
    · rw [equals_factor_nan a.z b.z _ (Or.inl hz)]; simp
    · rw [equals_factor_nan a.x b.x _ (Or.inr hbx)]; simp
    · rw [equals_factor_nan a.y b.y _ (Or.inr hby)]; simp
    · rw [equals_factor_nan a.z b.z _ (Or.inr hbz)]; simp
  refine ⟨main, fun v tol h => main v v tol ?_⟩
  simp only [Bool.or_eq_true] at h ⊢
  tauto

/-- Witness for C9: a vector with a NaN first component is not `v3_equals`
to itself at tolerance `1`. -/
theorem C9_equals_nan_witness :
    v3_equals ⟨F32.nan, F32.fin 0, F32.fin 0⟩ ⟨F32.nan, F32.fin 0, F32.fin 0⟩
      (F32.fin 1) = false :=
  C9_equals_nan.2 ⟨F32.nan, F32.fin 0, F32.fin 0⟩ (F32.fin 1) (by decide)

/-- C10: `v3_length` computes `sqrtf(x*x + y*y + z*z)` with single-precision
intermediates, so there is a vector — `(2^127, 0, 0)` — with all-finite
components whose exact Euclidean norm (`2^127`, since the exact sum of
squares is `(2^127)^2`) is itself representable as a finite float, yet
`v3_length` returns `+∞` because `x*x` overflows. -/
theorem C10_length_overflow :
    (F32.fin ((2 : ℚ) ^ 127)).isFinite = true ∧
    ((2 : ℚ) ^ 127 * 2 ^ 127 + 0 * 0 + 0 * 0 = ((2 : ℚ) ^ 127) ^ 2) ∧
    roundQ ((2 : ℚ) ^ 127) = F32.fin ((2 : ℚ) ^ 127) ∧
    v3_length ⟨F32.fin ((2 : ℚ) ^ 127), F32.fin 0, F32.fin 0⟩ = F32.inf false := by
  refine ⟨by decide, by ring, by decide, by decide⟩


/-! ## Correctness of the rounding primitives -/

/-- `qpow2` agrees with the integer power of `2` in `ℚ`. -/
theorem qpow2_eq_zpow (e : ℤ) : qpow2 e = (2 : ℚ) ^ e := by
  unfold qpow2
  split
  next h =>
    push_cast
    rw [← zpow_natCast (2 : ℚ) e.toNat, Int.toNat_of_nonneg h]
  next h =>
    push_cast
    rw [← zpow_natCast (2 : ℚ) (-e).toNat, Int.toNat_of_nonneg (by omega), one_div,
      ← zpow_neg, neg_neg]

/-- `qpow2` is positive. -/
theorem qpow2_pos (e : ℤ) : 0 < qpow2 e := by
  rw [qpow2_eq_zpow]; positivity

/-- `qpow2` of a sum. -/
theorem qpow2_add (e f : ℤ) : qpow2 (e + f) = qpow2 e * qpow2 f := by
  rw [qpow2_eq_zpow, qpow2_eq_zpow, qpow2_eq_zpow, zpow_add₀ (by norm_num : (2:ℚ) ≠ 0)]

/-- The round-to-nearest integer is within a half of its argument. -/
theorem rne_err (q : ℚ) : |(rne q : ℚ) - q| ≤ 1 / 2 := by
  have h1 := Int.floor_le q
  have h2 := Int.lt_floor_add_one q
  simp only [rne]
  split
  next h => rw [abs_le]; constructor <;> push_cast <;> linarith
  next h =>
    push_neg at h
    split
    next h' => rw [abs_le]; push_cast; constructor <;> linarith
    next h' =>
      push_neg at h'
      split <;> (rw [abs_le]; push_cast; constructor <;> linarith)

/-- Correctness of the fuel-driven base-2 logarithm. -/
theorem natLog2F_spec : ∀ f n, 0 < n → n < 2 ^ f →
    2 ^ natLog2F f n ≤ n ∧ n < 2 ^ (natLog2F f n + 1)
  | 0, n => by intro h1 h2; simp at h2; omega
  | f + 1, 0 => by intro h1 _; omega
  | f + 1, 1 => by
    intro _ _
    constructor <;> simp [natLog2F]
  | f + 1, n + 2 => by
    intro _ h2
    have hp : (2 : ℕ) ^ (f + 1) = 2 * 2 ^ f := by ring
    have hrec := natLog2F_spec f ((n + 2) / 2) (by omega) (by omega)
    have hu : natLog2F (f + 1) (n + 2) = natLog2F f ((n + 2) / 2) + 1 := rfl
    rw [hu]
    set L := natLog2F f ((n + 2) / 2) with hL
    have e1 : (2 : ℕ) ^ (L + 1) = 2 * 2 ^ L := by ring
    have e2 : (2 : ℕ) ^ (L + 1 + 1) = 4 * 2 ^ L := by ring
    omega

/-- Correctness of `natLog2`. -/
theorem natLog2_spec (n : ℕ) (h : 0 < n) :
    2 ^ natLog2 n ≤ n ∧ n < 2 ^ (natLog2 n + 1) :=
  natLog2F_spec n n h (Nat.lt_two_pow n)

/-- Correctness of the fuel-driven integer square root. -/
theorem isqrtF_spec : ∀ f n, n < 4 ^ f →
    (isqrtF f n) ^ 2 ≤ n ∧ n < (isqrtF f n + 1) ^ 2
  | 0, n => by intro h; simp at h; subst h; simp [isqrtF]
  | f + 1, 0 => by intro _; simp [isqrtF]
  | f + 1, 1 => by intro _; simp [isqrtF]
  | f + 1, 2 => by intro _; constructor <;> simp [isqrtF]
  | f + 1, 3 => by intro _; constructor <;> simp [isqrtF]
  | f + 1, n + 4 => by
    intro h
    have hp : (4 : ℕ) ^ (f + 1) = 4 * 4 ^ f := by ring
    have hrec := isqrtF_spec f ((n + 4) / 4) (by omega)
    set s := isqrtF f ((n + 4) / 4) with hs
    have hu : isqrtF (f + 1) (n + 4) =
        (if (2 * s + 1) * (2 * s + 1) ≤ n + 4 then 2 * s + 1 else 2 * s) := rfl
    rw [hu]
    have e0 : s ^ 2 ≤ (n + 4) / 4 ∧ (n + 4) / 4 < (s + 1) ^ 2 := hrec
    have e1 : (s + 1) ^ 2 = s ^ 2 + 2 * s + 1 := by ring
    split
    next hc =>
      have e2 : (2 * s + 1 + 1) ^ 2 = 4 * s ^ 2 + 8 * s + 4 := by ring
      have e3 : (2 * s + 1) ^ 2 = (2 * s + 1) * (2 * s + 1) := by ring
      omega
    next hc =>
      have e2 : (2 * s) ^ 2 = 4 * s ^ 2 := by ring
      have e3 : (2 * s + 1) ^ 2 = (2 * s + 1) * (2 * s + 1) := by ring
      omega

/-- Correctness of `isqrtN`. -/
theorem isqrtN_spec (n : ℕ) : (isqrtN n) ^ 2 ≤ n ∧ n < (isqrtN n + 1) ^ 2 :=
  isqrtF_spec n n (lt_of_lt_of_le (Nat.lt_two_pow n)
    (Nat.pow_le_pow_left (by norm_num) n))

/-- Correctness of `qlog2`: it brackets a positive rational between
consecutive integer powers of two. -/
theorem qlog2_spec (a : ℚ) (ha : 0 < a) :
    qpow2 (qlog2 a) ≤ a ∧ a < qpow2 (qlog2 a + 1) := by
  have hnum : 0 < a.num := Rat.num_pos.mpr ha
  have hden : 0 < a.den := a.pos
  obtain ⟨hp1, hp2⟩ := natLog2_spec a.num.toNat (by omega)
  obtain ⟨hd1, hd2⟩ := natLog2_spec a.den hden
  set lp := natLog2 a.num.toNat with hlp
  set ld := natLog2 a.den with hld
  have hdenq : (0 : ℚ) < (a.den : ℚ) := by exact_mod_cast hden
  have zn : ∀ k : ℕ, (2 : ℚ) ^ (k : ℤ) = ((2 ^ k : ℕ) : ℚ) := by
    intro k; rw [zpow_natCast]; push_cast; ring
  have hnumt : ((a.num.toNat : ℕ) : ℚ) = ((a.num : ℤ) : ℚ) := by
    exact_mod_cast congrArg (fun z : ℤ => (z : ℚ)) (Int.toNat_of_nonneg hnum.le)
  have hb1 : (2 : ℚ) ^ (lp : ℤ) ≤ ((a.num : ℤ) : ℚ) := by
    rw [zn lp, ← hnumt]; exact_mod_cast hp1
  have hb2 : ((a.num : ℤ) : ℚ) < (2 : ℚ) ^ ((lp : ℤ) + 1) := by
    rw [show ((lp : ℤ) + 1) = (((lp + 1 : ℕ)) : ℤ) by push_cast; ring, zn (lp + 1),
      ← hnumt]
    exact_mod_cast hp2
  have hb3 : (2 : ℚ) ^ (ld : ℤ) ≤ ((a.den : ℕ) : ℚ) := by
    rw [zn ld]; exact_mod_cast hd1
  have hb4 : ((a.den : ℕ) : ℚ) < (2 : ℚ) ^ ((ld : ℤ) + 1) := by
    rw [show ((ld : ℤ) + 1) = (((ld + 1 : ℕ)) : ℤ) by push_cast; ring, zn (ld + 1)]
    exact_mod_cast hd2
  have key_low : (2 : ℚ) ^ ((lp : ℤ) - ld - 1) < a := by
    have e : (2 : ℚ) ^ ((lp : ℤ) - ld - 1) * (2 : ℚ) ^ ((ld : ℤ) + 1) =
        (2 : ℚ) ^ (lp : ℤ) := by
      rw [← zpow_add₀ (by norm_num : (2 : ℚ) ≠ 0)]; congr 1; ring
    have hlt : (2 : ℚ) ^ ((lp : ℤ) - ld - 1) * (a.den : ℚ) < ((a.num : ℤ) : ℚ) := by
      calc (2 : ℚ) ^ ((lp : ℤ) - ld - 1) * (a.den : ℚ)
          < (2 : ℚ) ^ ((lp : ℤ) - ld - 1) * (2 : ℚ) ^ ((ld : ℤ) + 1) :=
            mul_lt_mul_of_pos_left hb4 (by positivity)
        _ = (2 : ℚ) ^ (lp : ℤ) := e
        _ ≤ ((a.num : ℤ) : ℚ) := hb1
    rw [← Rat.num_div_den a, lt_div_iff hdenq]
    exact hlt
  have key_high : a < (2 : ℚ) ^ ((lp : ℤ) - ld + 1) := by
    have e : (2 : ℚ) ^ ((lp : ℤ) + 1) =
        (2 : ℚ) ^ ((lp : ℤ) - ld + 1) * (2 : ℚ) ^ (ld : ℤ) := by
      rw [← zpow_add₀ (by norm_num : (2 : ℚ) ≠ 0)]; congr 1; ring
    have hlt : ((a.num : ℤ) : ℚ) < (2 : ℚ) ^ ((lp : ℤ) - ld + 1) * (a.den : ℚ) := by
      calc ((a.num : ℤ) : ℚ) < (2 : ℚ) ^ ((lp : ℤ) + 1) := hb2
        _ = (2 : ℚ) ^ ((lp : ℤ) - ld + 1) * (2 : ℚ) ^ (ld : ℤ) := e
        _ ≤ (2 : ℚ) ^ ((lp : ℤ) - ld + 1) * (a.den : ℚ) :=
            mul_le_mul_of_nonneg_left hb3 (by positivity)
    rw [← Rat.num_div_den a, div_lt_iff hdenq]
    exact hlt
  have hgoal : qlog2 a =
      if qpow2 ((lp : ℤ) - ld) ≤ a then (lp : ℤ) - ld else (lp : ℤ) - ld - 1 := rfl
  rw [hgoal]
  split
  next h =>
    refine ⟨h, ?_⟩
    rw [qpow2_eq_zpow]
    exact key_high
  next h =>
    push_neg at h
    rw [qpow2_eq_zpow] at h
    constructor
    · rw [qpow2_eq_zpow]
      exact le_of_lt key_low
    · rw [qpow2_eq_zpow, show ((lp : ℤ) - ld - 1 + 1) = (lp : ℤ) - ld by ring]
      exact h


/-- `qpow2` at a natural-number literal. -/
theorem qpow2_coe_nat (k : ℕ) : qpow2 (k : ℤ) = (2 : ℚ) ^ k := by
  rw [qpow2_eq_zpow, zpow_natCast]

/-- `qpow2` at the negation of a natural-number literal. -/
theorem qpow2_neg_nat (k : ℕ) : qpow2 (-(k : ℤ)) = 1 / 2 ^ k := by
  rw [qpow2_eq_zpow, zpow_neg, zpow_natCast, one_div]

/-- `qpow2` is monotone. -/
theorem qpow2_mono {e f : ℤ} (h : e ≤ f) : qpow2 e ≤ qpow2 f := by
  rw [qpow2_eq_zpow, qpow2_eq_zpow]
  exact zpow_le_zpow_right₀ (by norm_num) h

/-- Relative/absolute error of `roundPos` below the overflow range: the
result is finite, nonnegative, and within `2^-24·a + 2^-150` of `a`. -/
theorem roundPos_err (a : ℚ) (h0 : 0 < a) (hub : a ≤ 2 ^ 127) :
    ∃ v : ℚ, roundPos a = F32.fin v ∧ 0 ≤ v ∧
      |v - a| ≤ (1 / 2 ^ 24) * a + 1 / 2 ^ 150 := by
  have h149 := rne_err (a * 2 ^ 149)
  rw [abs_le] at h149
  set m : ℤ := rne (a * 2 ^ 149) with hm
  have hgoal : roundPos a =
      if m ≤ 2 ^ 24 then
        F32.fin ((m : ℚ) / 2 ^ 149)
      else
        (if (2 : ℚ) ^ 128 ≤ (rne (a * qpow2 (23 - qlog2 a)) : ℚ) *
              qpow2 (qlog2 a - 23)
         then F32.inf false
         else F32.fin ((rne (a * qpow2 (23 - qlog2 a)) : ℚ) *
              qpow2 (qlog2 a - 23))) := rfl
  rw [hgoal]
  split
  next hreg =>
    refine ⟨_, rfl, ?_, ?_⟩
    · have hp : (0:ℚ) < a * 2 ^ 149 := by positivity
      have hgt : (-1 : ℚ) < (m : ℚ) := by linarith [h149.1]
      have hgtz : (-1 : ℤ) < m := by exact_mod_cast hgt
      have hz : (0 : ℤ) ≤ m := by omega
      have hzq : (0 : ℚ) ≤ (m : ℚ) := by exact_mod_cast hz
      positivity
    · have he : (m : ℚ) / 2 ^ 149 - a = ((m : ℚ) - a * 2 ^ 149) / 2 ^ 149 := by ring
      have habs : |(m : ℚ) - a * 2 ^ 149| ≤ 1 / 2 := abs_le.mpr h149
      rw [he, abs_div, abs_of_pos (by norm_num : (0:ℚ) < (2:ℚ)^149)]
      have h1 : |(m : ℚ) - a * 2 ^ 149| / 2 ^ 149 ≤ (1/2) / 2^149 := by
        gcongr
      have h2 : (0:ℚ) ≤ (1 / 2 ^ 24) * a := by positivity
      have h3 : ((1:ℚ)/2)/2^149 = 1/2^150 := by norm_num
      linarith
  next hreg =>
    push_neg at hreg
    obtain ⟨hq1, hq2⟩ := qlog2_spec a h0
    set e := qlog2 a with he
    have hscale : a * qpow2 (23 - e) * qpow2 (e - 23) = a := by
      rw [mul_assoc, ← qpow2_add, show (23 - e) + (e - 23) = 0 from by ring,
        show ((0:ℤ)) = ((0:ℕ):ℤ) from rfl, qpow2_coe_nat]
      norm_num
    have hQpos : (0:ℚ) < qpow2 (e - 23) := qpow2_pos _
    have hQpos' : (0:ℚ) < qpow2 (23 - e) := qpow2_pos _
    have hband : (2:ℚ)^23 ≤ a * qpow2 (23 - e) ∧ a * qpow2 (23 - e) < 2^24 := by
      constructor
      · calc (2:ℚ)^23 = qpow2 23 := (qpow2_coe_nat 23).symm
          _ = qpow2 e * qpow2 (23 - e) := by rw [← qpow2_add]; congr 1; ring
          _ ≤ a * qpow2 (23 - e) := mul_le_mul_of_nonneg_right hq1 hQpos'.le
      · calc a * qpow2 (23 - e) < qpow2 (e + 1) * qpow2 (23 - e) :=
              mul_lt_mul_of_pos_right hq2 hQpos'
          _ = qpow2 24 := by rw [← qpow2_add]; congr 1; ring
          _ = (2:ℚ)^24 := qpow2_coe_nat 24
    have hrne := rne_err (a * qpow2 (23 - e))
    rw [abs_le] at hrne
    set n := rne (a * qpow2 (23 - e)) with hn
    have hnlow : (2:ℚ)^23 ≤ (n : ℚ) := by
      have : (2:ℚ)^23 - 1/2 ≤ (n : ℚ) := by nlinarith [hband.1, hrne.1]
      have hint : ((2:ℤ)^23) ≤ n := by
        have : ((2:ℤ)^23 : ℚ) - 1 < (n : ℚ) := by push_cast; nlinarith
        have := (by exact_mod_cast this : ((2:ℤ)^23 - 1 : ℤ) < n)
        omega
      exact_mod_cast hint
    have herr : |(n : ℚ) * qpow2 (e - 23) - a| ≤ (1/2) * qpow2 (e - 23) := by
      have hd : (n : ℚ) * qpow2 (e - 23) - a =
          ((n : ℚ) - a * qpow2 (23 - e)) * qpow2 (e - 23) := by
        rw [sub_mul, hscale]
      rw [hd, abs_mul, abs_of_pos hQpos]
      apply mul_le_mul_of_nonneg_right _ hQpos.le
      rw [abs_le]; exact hrne
    have hQa : qpow2 (e - 23) ≤ a * (1 / 2 ^ 23) := by
      calc qpow2 (e - 23) = qpow2 e * qpow2 (-23) := by
            rw [← qpow2_add]; congr 1; try ring
        _ ≤ a * qpow2 (-23) := mul_le_mul_of_nonneg_right hq1 (qpow2_pos _).le
        _ = a * (1 / 2 ^ 23) := by
            rw [show (-23 : ℤ) = -((23 : ℕ) : ℤ) from by norm_num, qpow2_neg_nat]
    have herr' : |(n : ℚ) * qpow2 (e - 23) - a| ≤ (1 / 2 ^ 24) * a := by
      calc |(n : ℚ) * qpow2 (e - 23) - a| ≤ (1/2) * qpow2 (e - 23) := herr
        _ ≤ (1/2) * (a * (1 / 2 ^ 23)) := by
            apply mul_le_mul_of_nonneg_left hQa (by norm_num)
        _ = (1 / 2 ^ 24) * a := by ring
    have hvub : (n : ℚ) * qpow2 (e - 23) < 2 ^ 128 := by
      have habs := abs_le.mp herr'
      nlinarith [habs.2]
    rw [if_neg (by push_neg; exact hvub)]
    refine ⟨_, rfl, ?_, ?_⟩
    · positivity
    · calc |(n : ℚ) * qpow2 (e - 23) - a| ≤ (1 / 2 ^ 24) * a := herr'
        _ ≤ (1 / 2 ^ 24) * a + 1 / 2 ^ 150 := by norm_num

/-- Error of `roundQ` below the overflow range, with sign preservation. -/
theorem roundQ_err (x : ℚ) (hub : |x| ≤ 2 ^ 127) :
    ∃ v : ℚ, roundQ x = F32.fin v ∧
      |v - x| ≤ (1 / 2 ^ 24) * |x| + 1 / 2 ^ 150 ∧
      (0 ≤ x → 0 ≤ v) ∧ (x ≤ 0 → v ≤ 0) := by
  rcases lt_trichotomy x 0 with hneg | hzero | hpos
  · have h1 : roundQ x = (roundPos (-x)).negF := by
      unfold roundQ
      rw [if_neg (by linarith), if_neg (by linarith)]
    obtain ⟨w, hw, hw0, hwerr⟩ := roundPos_err (-x) (by linarith)
      (by rw [abs_of_neg hneg] at hub; linarith)
    refine ⟨-w, ?_, ?_, ?_, ?_⟩
    · rw [h1, hw]; rfl
    · rw [abs_of_neg hneg]
      calc |(-w) - x| = |w - (-x)| := by rw [← abs_neg]; congr 1; ring
        _ ≤ (1 / 2 ^ 24) * (-x) + 1 / 2 ^ 150 := hwerr
    · intro h; linarith
    · intro _; linarith
  · subst hzero
    refine ⟨0, ?_, by norm_num, fun _ => le_refl 0, fun _ => le_refl 0⟩
    unfold roundQ; rw [if_pos rfl]
  · have h1 : roundQ x = roundPos x := by
      unfold roundQ
      rw [if_neg (by linarith), if_pos hpos]
    obtain ⟨w, hw, hw0, hwerr⟩ := roundPos_err x hpos
      (by rw [abs_of_pos hpos] at hub; linarith)
    refine ⟨w, by rw [h1, hw], ?_, fun _ => hw0, ?_⟩
    · rw [abs_of_pos hpos]; exact hwerr
    · intro h; linarith

/-- Bracketing property of `rneSqrt`: the result `n` satisfies
`(n - 1/2)·Q ≤ √a ≤ (n + 1/2)·Q`, stated without square roots. -/
theorem rneSqrt_bracket (a Q : ℚ) (ha : 0 ≤ a) (hQ : 0 < Q) :
    0 ≤ rneSqrt a Q ∧
      a ≤ ((rneSqrt a Q : ℚ) + 1 / 2) ^ 2 * Q ^ 2 ∧
      (1 ≤ rneSqrt a Q → ((rneSqrt a Q : ℚ) - 1 / 2) ^ 2 * Q ^ 2 ≤ a) := by
  set t := a / (Q * Q) with ht
  have ht0 : 0 ≤ t := by positivity
  have hQQ : (0:ℚ) < Q ^ 2 := by positivity
  have hta : a = t * Q ^ 2 := by
    have hQne : Q * Q ≠ 0 := by positivity
    rw [ht, sq, div_mul_eq_mul_div, mul_div_assoc, div_self hQne, mul_one]
  obtain ⟨hs1, hs2⟩ := isqrtN_spec ⌊t⌋.toNat
  set n0 := isqrtN ⌊t⌋.toNat with hn0
  have hfln : (0:ℤ) ≤ ⌊t⌋ := Int.floor_nonneg.mpr ht0
  have hflq : ((⌊t⌋.toNat : ℕ) : ℚ) = ((⌊t⌋ : ℤ) : ℚ) := by
    exact_mod_cast congrArg (fun z : ℤ => (z : ℚ)) (Int.toNat_of_nonneg hfln)
  have hfl1 : ((⌊t⌋.toNat : ℕ) : ℚ) ≤ t := by
    rw [hflq]; exact Int.floor_le t
  have hfl2 : t < ((⌊t⌋.toNat : ℕ) : ℚ) + 1 := by
    rw [hflq]; exact Int.lt_floor_add_one t
  have hlow : ((n0 : ℚ)) ^ 2 ≤ t := by
    calc ((n0 : ℚ)) ^ 2 = ((n0 ^ 2 : ℕ) : ℚ) := by push_cast; ring
      _ ≤ ((⌊t⌋.toNat : ℕ) : ℚ) := by exact_mod_cast hs1
      _ ≤ t := hfl1
  have hhigh : t < ((n0 : ℚ) + 1) ^ 2 := by
    have h1 : ((⌊t⌋.toNat : ℕ) : ℚ) + 1 ≤ (((n0 + 1) ^ 2 : ℕ) : ℚ) := by
      exact_mod_cast hs2
    calc t < ((⌊t⌋.toNat : ℕ) : ℚ) + 1 := hfl2
      _ ≤ (((n0 + 1) ^ 2 : ℕ) : ℚ) := h1
      _ = ((n0 : ℚ) + 1) ^ 2 := by push_cast; ring
  have hgoal : rneSqrt a Q =
      (if t < ((n0 : ℚ) + 1 / 2) ^ 2 then (n0 : ℤ)
       else if ((n0 : ℚ) + 1 / 2) ^ 2 < t then (n0 : ℤ) + 1
       else if 2 ∣ n0 then (n0 : ℤ) else (n0 : ℤ) + 1) := rfl
  rw [hgoal]
  clear_value n0
  clear hgoal hn0 hs1 hs2 hflq hfl1 hfl2 hfln
  have hn0q : (0:ℚ) ≤ (n0 : ℚ) := by positivity
  split
  next hb =>
    refine ⟨by positivity, ?_, ?_⟩
    · rw [hta]
      push_cast
      apply mul_le_mul_of_nonneg_right (le_of_lt hb) hQQ.le
    · intro h1
      have h1q : (1:ℚ) ≤ (n0 : ℚ) := by exact_mod_cast h1
      rw [hta]
      apply mul_le_mul_of_nonneg_right _ hQQ.le
      push_cast
      nlinarith [hlow]
  next hb =>
    push_neg at hb
    split
    next hb2 =>
      refine ⟨by positivity, ?_, ?_⟩
      · rw [hta]
        apply mul_le_mul_of_nonneg_right _ hQQ.le
        push_cast
        nlinarith [hhigh]
      · intro _
        rw [hta]
        apply mul_le_mul_of_nonneg_right _ hQQ.le
        push_cast
        nlinarith [hb2]
    next hb2 =>
      push_neg at hb2
      have heq : t = ((n0 : ℚ) + 1 / 2) ^ 2 := le_antisymm hb2 hb
      by_cases hdvd : 2 ∣ n0
      · rw [if_pos hdvd]
        refine ⟨by positivity, ?_, ?_⟩
        · rw [hta]
          apply mul_le_mul_of_nonneg_right _ hQQ.le
          push_cast
          nlinarith [heq.le]
        · intro h1
          have h1q : (1:ℚ) ≤ (n0 : ℚ) := by exact_mod_cast h1
          rw [hta]
          apply mul_le_mul_of_nonneg_right _ hQQ.le
          push_cast
          nlinarith [hlow]
      · rw [if_neg hdvd]
        refine ⟨by positivity, ?_, ?_⟩
        · rw [hta]
          apply mul_le_mul_of_nonneg_right _ hQQ.le
          push_cast
          nlinarith [heq.le]
        · intro _
          rw [hta]
          apply mul_le_mul_of_nonneg_right _ hQQ.le
          push_cast
          nlinarith [heq.ge]


/-- Taking square roots of a squared inequality (nonnegative case). -/
theorem le_of_sq_le_sq' {A B : ℚ} (hA : 0 ≤ A) (hB : 0 ≤ B) (h : A ^ 2 ≤ B ^ 2) :
    A ≤ B := by
  by_contra hc
  push_neg at hc
  nlinarith

/-- `sqrtPos` in the normal range: the result is finite with value
`sqrtVal a`, positive, and brackets `√a` within relative error `2^-24`
(stated via squares). -/
theorem sqrtPos_form (a : ℚ) (hlb : 1 / 2 ^ 240 ≤ a) (hub : a ≤ 2 ^ 250) :
    sqrtPos a = F32.fin (sqrtVal a) ∧ 0 < sqrtVal a ∧
      (sqrtVal a * (1 - 1 / 2 ^ 24)) ^ 2 ≤ a ∧
      a ≤ (sqrtVal a * (1 + 1 / 2 ^ 24)) ^ 2 := by
  unfold sqrtVal
  have ha : 0 < a := lt_of_lt_of_le (by norm_num) hlb
  obtain ⟨hb0, hb1, hb2⟩ := rneSqrt_bracket a (1 / 2 ^ 149) ha.le (by norm_num)
  set m := rneSqrt a (1 / 2 ^ 149) with hm
  have hgoal : sqrtPos a =
      if m ≤ 2 ^ 24 then F32.fin ((m : ℚ) / 2 ^ 149)
      else
        (if (2 : ℚ) ^ 128 ≤ (rneSqrt a (qpow2 ((qlog2 a).fdiv 2 - 23)) : ℚ) *
              qpow2 ((qlog2 a).fdiv 2 - 23)
         then F32.inf false
         else F32.fin ((rneSqrt a (qpow2 ((qlog2 a).fdiv 2 - 23)) : ℚ) *
              qpow2 ((qlog2 a).fdiv 2 - 23))) := rfl
  clear_value m
  clear hm
  have hreg : ¬ (m ≤ 2 ^ 24) := by
    intro hle
    have hmq : (m : ℚ) ≤ 2 ^ 24 := by exact_mod_cast hle
    have hmq0 : (0 : ℚ) ≤ (m : ℚ) := by exact_mod_cast hb0
    have hsmall : a ≤ ((2 ^ 24 : ℚ) + 1 / 2) ^ 2 * (1 / 2 ^ 149) ^ 2 := by
      refine le_trans hb1 ?_
      apply mul_le_mul_of_nonneg_right _ (by positivity)
      nlinarith
    nlinarith [hlb]
  rw [hgoal, if_neg hreg]
  clear hgoal hreg hb0 hb1 hb2
  obtain ⟨hq1, hq2⟩ := qlog2_spec a ha
  set l := qlog2 a with hl
  set e := l.fdiv 2 with he
  have hfd : 2 * e ≤ l := by
    rw [he, Int.fdiv_eq_ediv _ (by norm_num)]
    omega
  set Q := qpow2 (e - 23) with hQdef
  have hQpos : (0 : ℚ) < Q := qpow2_pos _
  obtain ⟨hc0, hc1, hc2⟩ := rneSqrt_bracket a Q ha.le hQpos
  set n := rneSqrt a Q with hn
  clear_value n
  clear hn
  have hQQ : Q ^ 2 * 2 ^ 46 ≤ a := by
    have h1 : qpow2 (2 * e) ≤ a := le_trans (qpow2_mono (by omega)) hq1
    have h2 : Q ^ 2 * 2 ^ 46 = qpow2 (2 * e) := by
      rw [hQdef, sq, ← qpow2_add, ← qpow2_coe_nat 46, ← qpow2_add]
      congr 1
      push_cast
      ring
    linarith [h2 ▸ h1]
  have hnlow : (2 : ℚ) ^ 23 ≤ (n : ℚ) := by
    have hn0q : (0 : ℚ) ≤ (n : ℚ) := by exact_mod_cast hc0
    have h46 : (2 : ℚ) ^ 46 ≤ ((n : ℚ) + 1 / 2) ^ 2 := by
      have := hc1
      nlinarith [sq_nonneg Q, mul_pos hQpos hQpos]
    have hhalf : (2 : ℚ) ^ 23 - 1 / 2 ≤ (n : ℚ) := by
      nlinarith
    have hint : (2 ^ 23 : ℤ) ≤ n := by
      have : ((2 ^ 23 - 1 : ℤ) : ℚ) < (n : ℚ) := by push_cast; linarith
      have := (by exact_mod_cast this : (2 ^ 23 - 1 : ℤ) < n)
      omega
    exact_mod_cast hint
  have hn1 : (1 : ℤ) ≤ n := by
    have : ((1 : ℤ) : ℚ) ≤ (n : ℚ) := by push_cast; nlinarith [hnlow]
    exact_mod_cast this
  have hlow2 := hc2 hn1
  have hQhalf : Q / 2 ≤ ((n : ℚ) * Q) * (1 / 2 ^ 24) := by
    have h1 : Q * (2 : ℚ) ^ 23 ≤ Q * (n : ℚ) :=
      mul_le_mul_of_nonneg_left hnlow hQpos.le
    nlinarith
  have hvpos : (0 : ℚ) < (n : ℚ) * Q := by
    have : (0 : ℚ) < (n : ℚ) := lt_of_lt_of_le (by norm_num) hnlow
    positivity
  have hvlow : (((n : ℚ) * Q) * (1 - 1 / 2 ^ 24)) ^ 2 ≤ a := by
    have h1 : (0 : ℚ) ≤ ((n : ℚ) * Q) * (1 - 1 / 2 ^ 24) := by positivity
    have h2 : ((n : ℚ) * Q) * (1 - 1 / 2 ^ 24) ≤ ((n : ℚ) - 1 / 2) * Q := by
      nlinarith [hQhalf]
    calc (((n : ℚ) * Q) * (1 - 1 / 2 ^ 24)) ^ 2 ≤ (((n : ℚ) - 1 / 2) * Q) ^ 2 :=
          pow_le_pow_left h1 h2 2
      _ = ((n : ℚ) - 1 / 2) ^ 2 * Q ^ 2 := by ring
      _ ≤ a := hlow2
  have hvhigh : a ≤ (((n : ℚ) * Q) * (1 + 1 / 2 ^ 24)) ^ 2 := by
    have h1 : ((n : ℚ) + 1 / 2) * Q ≤ ((n : ℚ) * Q) * (1 + 1 / 2 ^ 24) := by
      nlinarith [hQhalf]
    have h2 : (0 : ℚ) ≤ ((n : ℚ) + 1 / 2) * Q := by positivity
    calc a ≤ ((n : ℚ) + 1 / 2) ^ 2 * Q ^ 2 := hc1
      _ = (((n : ℚ) + 1 / 2) * Q) ^ 2 := by ring
      _ ≤ (((n : ℚ) * Q) * (1 + 1 / 2 ^ 24)) ^ 2 := pow_le_pow_left h2 h1 2
  have hnoflow : ¬ ((2 : ℚ) ^ 128 ≤ (n : ℚ) * Q) := by
    push_neg
    have h1 : (((n : ℚ) * Q) * (1 - 1 / 2 ^ 24)) ^ 2 ≤ ((2 : ℚ) ^ 125) ^ 2 := by
      calc (((n : ℚ) * Q) * (1 - 1 / 2 ^ 24)) ^ 2 ≤ a := hvlow
        _ ≤ 2 ^ 250 := hub
        _ = ((2 : ℚ) ^ 125) ^ 2 := by norm_num
    have h2 : ((n : ℚ) * Q) * (1 - 1 / 2 ^ 24) ≤ (2 : ℚ) ^ 125 :=
      le_of_sq_le_sq' (by positivity) (by positivity) h1
    nlinarith [hvpos]
  rw [if_neg hnoflow]
  exact ⟨rfl, hvpos, hvlow, hvhigh⟩

/-- Existential form of `sqrtPos_form`. -/
theorem sqrtPos_normal (a : ℚ) (hlb : 1 / 2 ^ 240 ≤ a) (hub : a ≤ 2 ^ 250) :
    ∃ v : ℚ, sqrtPos a = F32.fin v ∧ 0 < v ∧
      (v * (1 - 1 / 2 ^ 24)) ^ 2 ≤ a ∧ a ≤ (v * (1 + 1 / 2 ^ 24)) ^ 2 :=
  ⟨sqrtVal a, (sqrtPos_form a hlb hub).1, (sqrtPos_form a hlb hub).2.1,
    (sqrtPos_form a hlb hub).2.2.1, (sqrtPos_form a hlb hub).2.2.2⟩


/-! ## Interval bounds for the `v3_length` / `v3_normalize` pipeline -/

/-- Squaring a windowed component: the rounded square is within relative
error `2^-23` of the exact square (and exact for a zero component). -/
theorem sq_round_bound (q : ℚ)
    (h : q = 0 ∨ ((1 / 2 ^ 60 : ℚ) ≤ |q| ∧ |q| ≤ 2 ^ 60)) :
    ∃ s : ℚ, (F32.fin q).mulF (F32.fin q) = F32.fin s ∧ 0 ≤ s ∧
      q ^ 2 * (1 - 1 / 2 ^ 23) ≤ s ∧ s ≤ q ^ 2 * (1 + 1 / 2 ^ 23) := by
  have hF : (F32.fin q).mulF (F32.fin q) = roundQ (q * q) := rfl
  rcases h with h0 | ⟨hlo, hhi⟩
  · subst h0
    have hz : roundQ ((0 : ℚ) * 0) = F32.fin 0 := by norm_num [roundQ]
    exact ⟨0, by rw [hF, hz], by norm_num, by norm_num, by norm_num⟩
  · have hsq : |q * q| = q ^ 2 := by
      rw [abs_of_nonneg (mul_self_nonneg q)]; ring
    have hq2lo : (1 / 2 ^ 120 : ℚ) ≤ q ^ 2 := by
      have := pow_le_pow_left (by positivity : (0:ℚ) ≤ 1 / 2 ^ 60) hlo 2
      calc (1 / 2 ^ 120 : ℚ) = (1 / 2 ^ 60) ^ 2 := by norm_num
        _ ≤ |q| ^ 2 := this
        _ = q ^ 2 := sq_abs q
    have hq2hi : q ^ 2 ≤ 2 ^ 120 := by
      have := pow_le_pow_left (abs_nonneg q) hhi 2
      calc q ^ 2 = |q| ^ 2 := (sq_abs q).symm
        _ ≤ (2 ^ 60) ^ 2 := this
        _ = 2 ^ 120 := by norm_num
    obtain ⟨s, hs, herr, hsgn, _⟩ := roundQ_err (q * q)
      (by rw [hsq]; linarith)
    rw [hsq] at herr
    have habs := abs_le.mp herr
    refine ⟨s, by rw [hF, hs], hsgn (mul_self_nonneg q), ?_, ?_⟩
    · have : s - q * q ≥ -((1 / 2 ^ 24) * q ^ 2 + 1 / 2 ^ 150) := by linarith [habs.1]
      nlinarith [hq2lo, sq_nonneg q]
    · nlinarith [habs.2, hq2lo, sq_nonneg q]

/-- Adding two nonnegative finite values: relative error `2^-24` plus the
subnormal absolute `2^-150`. -/
theorem add_round_bound (p q : ℚ) (hp : 0 ≤ p) (hq : 0 ≤ q)
    (hub : p + q ≤ 2 ^ 125) :
    ∃ w : ℚ, (F32.fin p).addF (F32.fin q) = F32.fin w ∧ 0 ≤ w ∧
      (p + q) * (1 - 1 / 2 ^ 24) - 1 / 2 ^ 150 ≤ w ∧
      w ≤ (p + q) * (1 + 1 / 2 ^ 24) + 1 / 2 ^ 150 := by
  have hF : (F32.fin p).addF (F32.fin q) = roundQ (p + q) := rfl
  have hpq : |p + q| = p + q := abs_of_nonneg (by linarith)
  obtain ⟨w, hw, herr, hsgn, _⟩ := roundQ_err (p + q) (by rw [hpq]; linarith)
  rw [hpq] at herr
  have habs := abs_le.mp herr
  refine ⟨w, by rw [hF, hw], hsgn (by linarith), by nlinarith [habs.1],
    by nlinarith [habs.2]⟩

/-- Squares of two nearby values are nearby (used for the normalized
components, whose magnitude is about 1). -/
theorem sq_err_bound (d g : ℚ)
    (h : |d - g| ≤ (1 / 2 ^ 24) * |g| + 1 / 2 ^ 150) (hg : |g| ≤ 2) :
    |d ^ 2 - g ^ 2| ≤ g ^ 2 * (1 / 2 ^ 22) + 1 / 2 ^ 147 := by
  have h1 : |d + g| ≤ 2 * |g| + ((1 / 2 ^ 24) * |g| + 1 / 2 ^ 150) := by
    calc |d + g| = |(d - g) + 2 * g| := by congr 1; ring
      _ ≤ |d - g| + |2 * g| := abs_add _ _
      _ = |d - g| + 2 * |g| := by rw [abs_mul]; norm_num
      _ ≤ 2 * |g| + ((1 / 2 ^ 24) * |g| + 1 / 2 ^ 150) := by linarith
  have h2 : |d ^ 2 - g ^ 2| = |d - g| * |d + g| := by
    rw [← abs_mul]; congr 1; ring
  have h3 : |d ^ 2 - g ^ 2| ≤ ((1 / 2 ^ 24) * |g| + 1 / 2 ^ 150) *
      (2 * |g| + ((1 / 2 ^ 24) * |g| + 1 / 2 ^ 150)) := by
    rw [h2]
    exact mul_le_mul h h1 (abs_nonneg _) (by positivity)
  have h4 : |g| ^ 2 = g ^ 2 := sq_abs g
  nlinarith [abs_nonneg g, abs_nonneg (d - g), hg]

/-- `v3_length` on a windowed, not-all-zero vector: the computed length is
finite, positive, and its square is within relative error `2^-19` of the
exact sum of squares. -/
theorem length_window (x y z : ℚ)
    (hx : x = 0 ∨ ((1 / 2 ^ 60 : ℚ) ≤ |x| ∧ |x| ≤ 2 ^ 60))
    (hy : y = 0 ∨ ((1 / 2 ^ 60 : ℚ) ≤ |y| ∧ |y| ≤ 2 ^ 60))
    (hz : z = 0 ∨ ((1 / 2 ^ 60 : ℚ) ≤ |z| ∧ |z| ≤ 2 ^ 60))
    (hnz : ¬(x = 0 ∧ y = 0 ∧ z = 0)) :
    ∃ L : ℚ, v3_length ⟨F32.fin x, F32.fin y, F32.fin z⟩ = F32.fin L ∧ 0 < L ∧
      (x ^ 2 + y ^ 2 + z ^ 2) * (1 - 1 / 2 ^ 19) ≤ L ^ 2 ∧
      L ^ 2 ≤ (x ^ 2 + y ^ 2 + z ^ 2) * (1 + 1 / 2 ^ 19) := by
  -- the exact sum of squares and its range
  set T : ℚ := x ^ 2 + y ^ 2 + z ^ 2 with hT
  have hsq_window : ∀ w : ℚ, (w = 0 ∨ ((1 / 2 ^ 60 : ℚ) ≤ |w| ∧ |w| ≤ 2 ^ 60)) →
      w ^ 2 ≤ 2 ^ 120 := by
    intro w hw
    rcases hw with h0 | ⟨_, hhi⟩
    · subst h0; norm_num
    · have := pow_le_pow_left (abs_nonneg w) hhi 2
      calc w ^ 2 = |w| ^ 2 := (sq_abs w).symm
        _ ≤ (2 ^ 60) ^ 2 := this
        _ = 2 ^ 120 := by norm_num
  have hsq_low : ∀ w : ℚ, ((1 / 2 ^ 60 : ℚ) ≤ |w| ∧ |w| ≤ 2 ^ 60) →
      (1 / 2 ^ 120 : ℚ) ≤ w ^ 2 := by
    intro w hw
    have := pow_le_pow_left (by positivity : (0:ℚ) ≤ 1 / 2 ^ 60) hw.1 2
    calc (1 / 2 ^ 120 : ℚ) = (1 / 2 ^ 60) ^ 2 := by norm_num
      _ ≤ |w| ^ 2 := this
      _ = w ^ 2 := sq_abs w
  have hTlow : (1 / 2 ^ 120 : ℚ) ≤ T := by
    rcases hx with h0x | hwx
    · rcases hy with h0y | hwy
      · rcases hz with h0z | hwz
        · exact absurd ⟨h0x, h0y, h0z⟩ hnz
        · have := hsq_low z hwz
          nlinarith [sq_nonneg x, sq_nonneg y]
      · have := hsq_low y hwy
        nlinarith [sq_nonneg x, sq_nonneg z]
    · have := hsq_low x hwx
      nlinarith [sq_nonneg y, sq_nonneg z]
  have hThigh : T ≤ 3 * 2 ^ 120 := by
    have h1 := hsq_window x hx
    have h2 := hsq_window y hy
    have h3 := hsq_window z hz
    rw [hT]; linarith
  -- rounded squares
  obtain ⟨sx, hsx, hsx0, hsxl, hsxh⟩ := sq_round_bound x hx
  obtain ⟨sy, hsy, hsy0, hsyl, hsyh⟩ := sq_round_bound y hy
  obtain ⟨sz, hsz, hsz0, hszl, hszh⟩ := sq_round_bound z hz
  have hx2 := hsq_window x hx
  have hy2 := hsq_window y hy
  have hz2 := hsq_window z hz
  -- rounded sums
  obtain ⟨s1, hs1, hs10, hs1l, hs1h⟩ := add_round_bound sx sy hsx0 hsy0
    (by nlinarith [sq_nonneg x, sq_nonneg y])
  obtain ⟨Sv, hSv, hSv0, hSvl, hSvh⟩ := add_round_bound s1 sz hs10 hsz0
    (by nlinarith [sq_nonneg x, sq_nonneg y, sq_nonneg z])
  -- bounds of the rounded sum of squares relative to T
  have hSvT : T * (1 - 1 / 2 ^ 20) ≤ Sv ∧ Sv ≤ T * (1 + 1 / 2 ^ 20) := by
    constructor
    · linarith [hTlow, sq_nonneg x, sq_nonneg y, sq_nonneg z]
    · linarith [hTlow, sq_nonneg x, sq_nonneg y, sq_nonneg z]
  have hSvpos : 0 < Sv := by linarith [hTlow, hSvT.1]
  -- the square root
  have hsqrt : F32.sqrtF (F32.fin Sv) = sqrtPos Sv := by
    have hd : F32.sqrtF (F32.fin Sv) =
        if Sv < 0 then F32.nan else if Sv = 0 then F32.fin 0 else sqrtPos Sv := rfl
    rw [hd, if_neg (by linarith), if_neg (ne_of_gt hSvpos)]
  obtain ⟨L, hL, hL0, hLl, hLh⟩ := sqrtPos_normal Sv
    (by linarith [hTlow, hSvT.1]) (by linarith [hThigh, hSvT.2])
  refine ⟨L, ?_, hL0, ?_, ?_⟩
  · show (((F32.fin x).mulF (F32.fin x)).addF ((F32.fin y).mulF (F32.fin y))
        |>.addF ((F32.fin z).mulF (F32.fin z))).sqrtF = F32.fin L
    rw [hsx, hsy, hsz, hs1, hSv, hsqrt, hL]
  · -- L² ≥ Sv/(1+u)² ≥ T(1-2^-20)/(1+u)² ≥ T(1-2^-19)
    have h1 : Sv ≤ L ^ 2 * (1 + 1 / 2 ^ 24) ^ 2 := by
      calc Sv ≤ (L * (1 + 1 / 2 ^ 24)) ^ 2 := hLh
        _ = L ^ 2 * (1 + 1 / 2 ^ 24) ^ 2 := by ring
    linarith [hSvT.1, hTlow, sq_nonneg L]
  · have h1 : L ^ 2 * (1 - 1 / 2 ^ 24) ^ 2 ≤ Sv := by
      calc L ^ 2 * (1 - 1 / 2 ^ 24) ^ 2 = (L * (1 - 1 / 2 ^ 24)) ^ 2 := by ring
        _ ≤ Sv := hLl
    linarith [hSvT.2, hTlow, sq_nonneg L]


set_option maxHeartbeats 2000000 in
/-- Main numerical lemma for the amended C6: inside the scale window the
computed length of the normalized vector is within `10^-4` of `1`. -/
theorem normalize_unit_length (x y z : ℚ)
    (hx : x = 0 ∨ ((1 / 2 ^ 60 : ℚ) ≤ |x| ∧ |x| ≤ 2 ^ 60))
    (hy : y = 0 ∨ ((1 / 2 ^ 60 : ℚ) ≤ |y| ∧ |y| ≤ 2 ^ 60))
    (hz : z = 0 ∨ ((1 / 2 ^ 60 : ℚ) ≤ |z| ∧ |z| ≤ 2 ^ 60))
    (hnz : ¬(x = 0 ∧ y = 0 ∧ z = 0)) :
    ∃ q : ℚ,
      v3_length (v3_normalize ⟨F32.fin x, F32.fin y, F32.fin z⟩).1 = F32.fin q ∧
      |q - 1| ≤ 1 / 10000 := by
  obtain ⟨L, hLeq, hLpos, hLl, hLh⟩ := length_window x y z hx hy hz hnz
  obtain ⟨T, hT⟩ : ∃ t : ℚ, t = x ^ 2 + y ^ 2 + z ^ 2 := ⟨_, rfl⟩
  rw [← hT] at hLl hLh
  have habs_bound : ∀ w : ℚ, (w = 0 ∨ ((1 / 2 ^ 60 : ℚ) ≤ |w| ∧ |w| ≤ 2 ^ 60)) →
      |w| ≤ 2 ^ 60 := by
    intro w hw
    rcases hw with h0 | ⟨_, hhi⟩
    · subst h0; rw [abs_zero]; positivity
    · exact hhi
  have hTlow : (1 / 2 ^ 120 : ℚ) ≤ T := by
    have hsq_low : ∀ w : ℚ, ((1 / 2 ^ 60 : ℚ) ≤ |w| ∧ |w| ≤ 2 ^ 60) →
        (1 / 2 ^ 120 : ℚ) ≤ w ^ 2 := by
      intro w hw
      have := pow_le_pow_left (by positivity : (0:ℚ) ≤ 1 / 2 ^ 60) hw.1 2
      calc (1 / 2 ^ 120 : ℚ) = (1 / 2 ^ 60) ^ 2 := by norm_num
        _ ≤ |w| ^ 2 := this
        _ = w ^ 2 := sq_abs w
    rcases hx with h0x | hwx
    · rcases hy with h0y | hwy
      · rcases hz with h0z | hwz
        · exact absurd ⟨h0x, h0y, h0z⟩ hnz
        · have := hsq_low z hwz
          linarith only [this, hT, sq_nonneg x, sq_nonneg y]
      · have := hsq_low y hwy
        linarith only [this, hT, sq_nonneg x, sq_nonneg z]
    · have := hsq_low x hwx
      linarith only [this, hT, sq_nonneg y, sq_nonneg z]
  have hsq_high : ∀ w : ℚ, |w| ≤ 2 ^ 60 → w ^ 2 ≤ 2 ^ 120 := by
    intro w hw
    have := pow_le_pow_left (abs_nonneg w) hw 2
    calc w ^ 2 = |w| ^ 2 := (sq_abs w).symm
      _ ≤ (2 ^ 60) ^ 2 := this
      _ = 2 ^ 120 := by norm_num
  have hThigh : T ≤ 3 * 2 ^ 120 := by
    have h1 := hsq_high x (habs_bound x hx)
    have h2 := hsq_high y (habs_bound y hy)
    have h3 := hsq_high z (habs_bound z hz)
    linarith only [hT, h1, h2, h3]
  have hTpos : (0:ℚ) < T := by linarith only [hTlow]
  -- range of L
  have hL61 : (1 / 2 ^ 61 : ℚ) ≤ L := by
    apply le_of_sq_le_sq' (by positivity) hLpos.le
    calc ((1:ℚ) / 2 ^ 61) ^ 2 = 1 / 2 ^ 122 := by norm_num
      _ ≤ T * (1 - 1 / 2 ^ 19) := by linarith only [hTlow]
      _ ≤ L ^ 2 := hLl
  have hL62 : L ≤ 2 ^ 62 := by
    apply le_of_sq_le_sq' hLpos.le (by positivity)
    calc L ^ 2 ≤ T * (1 + 1 / 2 ^ 19) := hLh
      _ ≤ ((2:ℚ) ^ 62) ^ 2 := by linarith only [hThigh]
  -- the reciprocal
  have hdiv : (F32.fin 1).divF (F32.fin L) = roundQ (1 / L) := by
    have hd : (F32.fin 1).divF (F32.fin L) =
        if L = 0 then (if (1:ℚ) = 0 then F32.nan else F32.inf ((1:ℚ) < 0))
        else roundQ (1 / L) := rfl
    rw [hd, if_neg (ne_of_gt hLpos)]
  have hinvpos : (0:ℚ) < 1 / L := by positivity
  have hinvub : |1 / L| ≤ 2 ^ 127 := by
    rw [abs_of_pos hinvpos, div_le_iff hLpos]
    linarith only [hL61]
  obtain ⟨W, hWeq, hWerr, hWsgn, _⟩ := roundQ_err (1 / L) hinvub
  rw [abs_of_pos hinvpos] at hWerr
  have hWL : |W * L - 1| ≤ 1 / 2 ^ 23 := by
    have h1 : W * L - 1 = (W - 1 / L) * L := by
      field_simp
    rw [h1, abs_mul, abs_of_pos hLpos]
    calc |W - 1 / L| * L ≤ ((1 / 2 ^ 24) * (1 / L) + 1 / 2 ^ 150) * L := by
          apply mul_le_mul_of_nonneg_right hWerr hLpos.le
      _ = (1 / 2 ^ 24) * ((1 / L) * L) + (1 / 2 ^ 150) * L := by ring
      _ = (1 / 2 ^ 24) + (1 / 2 ^ 150) * L := by
          rw [div_mul_cancel₀ 1 (ne_of_gt hLpos)]; ring
      _ ≤ 1 / 2 ^ 23 := by linarith only [hL62]
  have hWLb := abs_le.mp hWL
  have hW0 : 0 < W := by nlinarith [hWLb.1, hLpos]
  have hWub : W ≤ 2 ^ 62 := by nlinarith [hWLb.2, hL61, hW0]
  -- the normalized components
  have hxa : |x| ≤ 2 ^ 60 := habs_bound x hx
  have hya : |y| ≤ 2 ^ 60 := habs_bound y hy
  have hza : |z| ≤ 2 ^ 60 := habs_bound z hz
  have hmulW : ∀ w : ℚ, |w| ≤ 2 ^ 60 → |w * W| ≤ 2 ^ 127 := by
    intro w hw
    rw [abs_mul, abs_of_pos hW0]
    calc |w| * W ≤ 2 ^ 60 * 2 ^ 62 := by
          apply mul_le_mul hw hWub hW0.le (by positivity)
      _ ≤ 2 ^ 127 := by norm_num
  obtain ⟨dx, hdx, hdxe, _, _⟩ := roundQ_err (x * W) (hmulW x hxa)
  obtain ⟨dy, hdy, hdye, _, _⟩ := roundQ_err (y * W) (hmulW y hya)
  obtain ⟨dz, hdz, hdze, _, _⟩ := roundQ_err (z * W) (hmulW z hza)
  -- the sum of squares of the exact scaled components is W²T ≈ 1
  have hWL2l : (1 - 1 / 2 ^ 23 : ℚ) ^ 2 ≤ (W * L) ^ 2 :=
    pow_le_pow_left (by norm_num) (by linarith only [hWLb.1]) 2
  have hWL2h : (W * L) ^ 2 ≤ (1 + 1 / 2 ^ 23 : ℚ) ^ 2 :=
    pow_le_pow_left (by positivity) (by linarith only [hWLb.2]) 2
  have hGu : W ^ 2 * T ≤ 1 + 1 / 2 ^ 17 := by
    have e1 : (W ^ 2 * T) * (T * (1 - 1 / 2 ^ 19)) ≤ (W ^ 2 * T) * L ^ 2 :=
      mul_le_mul_of_nonneg_left hLl (by positivity)
    have e3 : (W * L) ^ 2 * T ≤ (1 + 1 / 2 ^ 23) ^ 2 * T :=
      mul_le_mul_of_nonneg_right hWL2h hTpos.le
    have key : (W ^ 2 * T) * (1 - 1 / 2 ^ 19) * T ≤ (1 + 1 / 2 ^ 23) ^ 2 * T := by
      calc (W ^ 2 * T) * (1 - 1 / 2 ^ 19) * T
          = (W ^ 2 * T) * (T * (1 - 1 / 2 ^ 19)) := by ring
        _ ≤ (W ^ 2 * T) * L ^ 2 := e1
        _ = (W * L) ^ 2 * T := by ring
        _ ≤ (1 + 1 / 2 ^ 23) ^ 2 * T := e3
    have e4 : (W ^ 2 * T) * (1 - 1 / 2 ^ 19) ≤ (1 + 1 / 2 ^ 23) ^ 2 :=
      le_of_mul_le_mul_right key hTpos
    linarith only [e4]
  have hGl : (1 - 1 / 2 ^ 17 : ℚ) ≤ W ^ 2 * T := by
    have e1 : (W ^ 2 * T) * L ^ 2 ≤ (W ^ 2 * T) * (T * (1 + 1 / 2 ^ 19)) :=
      mul_le_mul_of_nonneg_left hLh (by positivity)
    have e3 : (1 - 1 / 2 ^ 23) ^ 2 * T ≤ (W * L) ^ 2 * T :=
      mul_le_mul_of_nonneg_right hWL2l hTpos.le
    have key : (1 - 1 / 2 ^ 23) ^ 2 * T ≤ (W ^ 2 * T) * (1 + 1 / 2 ^ 19) * T := by
      calc (1 - 1 / 2 ^ 23) ^ 2 * T ≤ (W * L) ^ 2 * T := e3
        _ = (W ^ 2 * T) * L ^ 2 := by ring
        _ ≤ (W ^ 2 * T) * (T * (1 + 1 / 2 ^ 19)) := e1
        _ = (W ^ 2 * T) * (1 + 1 / 2 ^ 19) * T := by ring
    have e4 : (1 - 1 / 2 ^ 23) ^ 2 ≤ (W ^ 2 * T) * (1 + 1 / 2 ^ 19) :=
      le_of_mul_le_mul_right key hTpos
    linarith only [e4]
  -- each exact scaled component has magnitude at most 2
  have hgabs : ∀ w : ℚ, w ^ 2 ≤ T → |w * W| ≤ 2 := by
    intro w hw
    apply le_of_sq_le_sq' (abs_nonneg _) (by norm_num)
    have h2 : w ^ 2 * W ^ 2 ≤ T * W ^ 2 :=
      mul_le_mul_of_nonneg_right hw (by positivity)
    calc |w * W| ^ 2 = (w * W) ^ 2 := sq_abs _
      _ = w ^ 2 * W ^ 2 := by ring
      _ ≤ T * W ^ 2 := h2
      _ = W ^ 2 * T := by ring
      _ ≤ 1 + 1 / 2 ^ 17 := hGu
      _ ≤ 2 ^ 2 := by norm_num
  have hgx : |x * W| ≤ 2 := hgabs x (by linarith only [hT, sq_nonneg y, sq_nonneg z])
  have hgy : |y * W| ≤ 2 := hgabs y (by linarith only [hT, sq_nonneg x, sq_nonneg z])
  have hgz : |z * W| ≤ 2 := hgabs z (by linarith only [hT, sq_nonneg x, sq_nonneg y])
  -- squared-component errors
  have hsqx := sq_err_bound dx (x * W) hdxe hgx
  have hsqy := sq_err_bound dy (y * W) hdye hgy
  have hsqz := sq_err_bound dz (z * W) hdze hgz
  have habs2 : ∀ w : ℚ, |w| ≤ 2 → w ^ 2 ≤ 4 := by
    intro w hw
    have := pow_le_pow_left (abs_nonneg w) hw 2
    calc w ^ 2 = |w| ^ 2 := (sq_abs w).symm
      _ ≤ (2:ℚ) ^ 2 := this
      _ = 4 := by norm_num
  have hgx2 : (x * W) ^ 2 ≤ 4 := habs2 _ hgx
  have hgy2 : (y * W) ^ 2 ≤ 4 := habs2 _ hgy
  have hgz2 : (z * W) ^ 2 ≤ 4 := habs2 _ hgz
  have hsqxb := abs_le.mp hsqx
  have hsqyb := abs_le.mp hsqy
  have hsqzb := abs_le.mp hsqz
  -- the rounded squares of the components
  have hdd : ∀ d : ℚ, d * d = d ^ 2 := fun d => by ring
  have hdx2 : |dx * dx| ≤ 2 ^ 127 := by
    rw [abs_of_nonneg (mul_self_nonneg dx), hdd]
    linarith only [hsqxb.2, hgx2, sq_nonneg (x * W)]
  have hdy2 : |dy * dy| ≤ 2 ^ 127 := by
    rw [abs_of_nonneg (mul_self_nonneg dy), hdd]
    linarith only [hsqyb.2, hgy2, sq_nonneg (y * W)]
  have hdz2 : |dz * dz| ≤ 2 ^ 127 := by
    rw [abs_of_nonneg (mul_self_nonneg dz), hdd]
    linarith only [hsqzb.2, hgz2, sq_nonneg (z * W)]
  obtain ⟨qx, hqx, hqxe, hqxs, _⟩ := roundQ_err (dx * dx) hdx2
  obtain ⟨qy, hqy, hqye, hqys, _⟩ := roundQ_err (dy * dy) hdy2
  obtain ⟨qz, hqz, hqze, hqzs, _⟩ := roundQ_err (dz * dz) hdz2
  have hqx0 : 0 ≤ qx := hqxs (mul_self_nonneg dx)
  have hqy0 : 0 ≤ qy := hqys (mul_self_nonneg dy)
  have hqz0 : 0 ≤ qz := hqzs (mul_self_nonneg dz)
  rw [abs_of_nonneg (mul_self_nonneg dx), hdd] at hqxe
  rw [abs_of_nonneg (mul_self_nonneg dy), hdd] at hqye
  rw [abs_of_nonneg (mul_self_nonneg dz), hdd] at hqze
  have hqxb := abs_le.mp hqxe
  have hqyb := abs_le.mp hqye
  have hqzb := abs_le.mp hqze
  -- rounded square magnitudes
  have hdx2' : dx ^ 2 ≤ 5 := by linarith only [hsqxb.2, hgx2]
  have hdy2' : dy ^ 2 ≤ 5 := by linarith only [hsqyb.2, hgy2]
  have hdz2' : dz ^ 2 ≤ 5 := by linarith only [hsqzb.2, hgz2]
  have hqxub : qx ≤ 6 := by linarith only [hqxb.2, hdx2']
  have hqyub : qy ≤ 6 := by linarith only [hqyb.2, hdy2']
  have hqzub : qz ≤ 6 := by linarith only [hqzb.2, hdz2']
  -- the two rounded additions
  obtain ⟨t1, ht1, ht10, ht1l, ht1h⟩ := add_round_bound qx qy hqx0 hqy0
    (by linarith only [hqxub, hqyub])
  obtain ⟨S1, hS1, hS10, hS1l, hS1h⟩ := add_round_bound t1 qz ht10 hqz0
    (by linarith only [ht1h, hqxub, hqyub, hqzub])
  -- G = Σ gᵢ² = W²T
  have hGsum : (x * W) ^ 2 + (y * W) ^ 2 + (z * W) ^ 2 = W ^ 2 * T := by
    rw [hT]; ring
  have e1 : (1 - 1 / 2 ^ 17 : ℚ) ≤ (x*W)^2 + (y*W)^2 + (z*W)^2 := by
    rw [hGsum]; exact hGl
  have e2 : (x*W)^2 + (y*W)^2 + (z*W)^2 ≤ 1 + 1 / 2 ^ 17 := by
    rw [hGsum]; exact hGu
  -- final bounds for S1
  have hS1bounds : (1 - 1 / 2 ^ 16 : ℚ) ≤ S1 ∧ S1 ≤ 1 + 1 / 2 ^ 16 := by
    constructor
    · linarith only [hS1l, ht1l, hqxb.1, hqyb.1, hqzb.1,
        hsqxb.1, hsqyb.1, hsqzb.1, e1, hgx2, hgy2, hgz2,
        sq_nonneg (x*W), sq_nonneg (y*W), sq_nonneg (z*W)]
    · linarith only [hS1h, ht1h, hqxb.2, hqyb.2, hqzb.2,
        hsqxb.2, hsqyb.2, hsqzb.2, e2, hgx2, hgy2, hgz2,
        sq_nonneg (x*W), sq_nonneg (y*W), sq_nonneg (z*W)]
  -- final square root
  have hS1pos : (0:ℚ) < S1 := by linarith only [hS1bounds.1]
  have hsqrt : F32.sqrtF (F32.fin S1) = sqrtPos S1 := by
    have hd : F32.sqrtF (F32.fin S1) =
        if S1 < 0 then F32.nan else if S1 = 0 then F32.fin 0 else sqrtPos S1 := rfl
    rw [hd, if_neg (by linarith only [hS1pos]), if_neg (ne_of_gt hS1pos)]
  obtain ⟨q, hq, hq0, hql, hqh⟩ := sqrtPos_normal S1
    (by linarith only [hS1bounds.1]) (by linarith only [hS1bounds.2])
  have hqub : q ≤ 1 + 1 / 10000 := by
    have h1 : (q * (1 - 1 / 2 ^ 24)) ^ 2 ≤ ((1 + 1 / 2 ^ 17 : ℚ)) ^ 2 := by
      calc (q * (1 - 1 / 2 ^ 24)) ^ 2 ≤ S1 := hql
        _ ≤ 1 + 1 / 2 ^ 16 := hS1bounds.2
        _ ≤ (1 + 1 / 2 ^ 17 : ℚ) ^ 2 := by norm_num
    have h2 : q * (1 - 1 / 2 ^ 24) ≤ 1 + 1 / 2 ^ 17 :=
      le_of_sq_le_sq' (by positivity) (by norm_num) h1
    linarith only [h2]
  have hqlb : 1 - 1 / 10000 ≤ q := by
    have h1 : ((1 - 1 / 2 ^ 15 : ℚ)) ^ 2 ≤ (q * (1 + 1 / 2 ^ 24)) ^ 2 := by
      calc ((1 - 1 / 2 ^ 15 : ℚ)) ^ 2 ≤ 1 - 1 / 2 ^ 16 := by norm_num
        _ ≤ S1 := hS1bounds.1
        _ ≤ (q * (1 + 1 / 2 ^ 24)) ^ 2 := hqh
    have h2 : (1 - 1 / 2 ^ 15 : ℚ) ≤ q * (1 + 1 / 2 ^ 24) :=
      le_of_sq_le_sq' (by norm_num) (by positivity) h1
    linarith only [h2]
  -- assembly
  have hnorm := v3_normalize_succ ⟨F32.fin x, F32.fin y, F32.fin z⟩ L hLeq
    (ne_of_gt hLpos)
  refine ⟨q, ?_, abs_le.mpr ⟨by linarith only [hqlb], by linarith only [hqub]⟩⟩
  rw [hnorm]
  show v3_length ⟨(F32.fin x).mulF ((F32.fin 1).divF (F32.fin L)),
      (F32.fin y).mulF ((F32.fin 1).divF (F32.fin L)),
      (F32.fin z).mulF ((F32.fin 1).divF (F32.fin L))⟩ = F32.fin q
  rw [hdiv, hWeq]
  have hmx : (F32.fin x).mulF (F32.fin W) = F32.fin dx := by
    have hr : (F32.fin x).mulF (F32.fin W) = roundQ (x * W) := rfl
    rw [hr, hdx]
  have hmy : (F32.fin y).mulF (F32.fin W) = F32.fin dy := by
    have hr : (F32.fin y).mulF (F32.fin W) = roundQ (y * W) := rfl
    rw [hr, hdy]
  have hmz : (F32.fin z).mulF (F32.fin W) = F32.fin dz := by
    have hr : (F32.fin z).mulF (F32.fin W) = roundQ (z * W) := rfl
    rw [hr, hdz]
  rw [hmx, hmy, hmz]
  show (((F32.fin dx).mulF (F32.fin dx)).addF ((F32.fin dy).mulF (F32.fin dy))
      |>.addF ((F32.fin dz).mulF (F32.fin dz))).sqrtF = F32.fin q
  have hmqx : (F32.fin dx).mulF (F32.fin dx) = F32.fin qx := by
    have hr : (F32.fin dx).mulF (F32.fin dx) = roundQ (dx * dx) := rfl
    rw [hr, hqx]
  have hmqy : (F32.fin dy).mulF (F32.fin dy) = F32.fin qy := by
    have hr : (F32.fin dy).mulF (F32.fin dy) = roundQ (dy * dy) := rfl
    rw [hr, hqy]
  have hmqz : (F32.fin dz).mulF (F32.fin dz) = F32.fin qz := by
    have hr : (F32.fin dz).mulF (F32.fin dz) = roundQ (dz * dz) := rfl
    rw [hr, hqz]
  rw [hmqx, hmqy, hmqz, ht1, hS1, hsqrt, hq]


/-- C6 as stated is false (see `C6_counterexample`): when component squares
fall into the subnormal range their rounding error is no longer a relative
error, and the computed unit vector can be off by several percent.  Amended
claim: for every vector `v` whose components are zero or of magnitude
between `2^-60` and `2^60` (all finite), with `v` not the zero vector, the
computed `length(normalize(v))` equals 1 within tolerance `10^-4`. -/
theorem C6_normalize_length (v : V3)
    (hx : windowB v.x = true) (hy : windowB v.y = true) (hz : windowB v.z = true)
    (hnz : v ≠ v3zero) :
    ∃ q : ℚ, v3_length (v3_normalize v).1 = F32.fin q ∧ |q - 1| ≤ 1 / 10000 := by
  obtain ⟨fx, fy, fz⟩ := v
  cases fx with
  | nan => simp [windowB] at hx
  | inf s => simp [windowB] at hx
  | fin x =>
    cases fy with
    | nan => simp [windowB] at hy
    | inf s => simp [windowB] at hy
    | fin y =>
      cases fz with
      | nan => simp [windowB] at hz
      | inf s => simp [windowB] at hz
      | fin z =>
        have hx' : x = 0 ∨ ((1 / 2 ^ 60 : ℚ) ≤ |x| ∧ |x| ≤ 2 ^ 60) := by
          simpa [windowB] using hx
        have hy' : y = 0 ∨ ((1 / 2 ^ 60 : ℚ) ≤ |y| ∧ |y| ≤ 2 ^ 60) := by
          simpa [windowB] using hy
        have hz' : z = 0 ∨ ((1 / 2 ^ 60 : ℚ) ≤ |z| ∧ |z| ≤ 2 ^ 60) := by
          simpa [windowB] using hz
        have hnz' : ¬(x = 0 ∧ y = 0 ∧ z = 0) := by
          rintro ⟨h1, h2, h3⟩
          exact hnz (by rw [h1, h2, h3]; rfl)
        exact normalize_unit_length x y z hx' hy' hz' hnz'

/-- Witness for C6 (amended): `v = (3, 0, 4)` normalizes to a vector of
computed length within `10^-4` of `1`. -/
theorem C6_normalize_length_witness :
    (windowB (F32.fin 3) = true ∧ windowB (F32.fin 0) = true ∧
      windowB (F32.fin 4) = true ∧
      (⟨F32.fin 3, F32.fin 0, F32.fin 4⟩ : V3) ≠ v3zero) ∧
    (∃ q : ℚ,
      v3_length (v3_normalize ⟨F32.fin 3, F32.fin 0, F32.fin 4⟩).1 = F32.fin q ∧
      |q - 1| ≤ 1 / 10000) :=
  ⟨⟨by decide, by decide, by decide, by decide⟩,
    C6_normalize_length ⟨F32.fin 3, F32.fin 0, F32.fin 4⟩
      (by decide) (by decide) (by decide) (by decide)⟩

/-- Counterexample to C6 as stated: `v = (3·2^-76, 3·2^-76, 0)` has finite
components, nonzero exact norm and nonzero computed length `2^-74`, but its
component squares round into the subnormal range with an 11% error, and
`length(normalize(v))` is `4448731/4194304 ≈ 1.0607` — not within `10^-4`
of `1`. -/
theorem C6_counterexample :
    ((F32.fin (3 / 2 ^ 76) : F32).isFinite = true ∧
      (F32.fin 0 : F32).isFinite = true) ∧
    ((3 / 2 ^ 76 : ℚ) ^ 2 + (3 / 2 ^ 76 : ℚ) ^ 2 + (0 : ℚ) ^ 2 ≠ 0) ∧
    v3_length ⟨F32.fin (3 / 2 ^ 76), F32.fin (3 / 2 ^ 76), F32.fin 0⟩ ≠ F32.fin 0 ∧
    ¬ (∃ q : ℚ,
        v3_length (v3_normalize
            ⟨F32.fin (3 / 2 ^ 76), F32.fin (3 / 2 ^ 76), F32.fin 0⟩).1 =
          F32.fin q ∧ |q - 1| ≤ 1 / 10000) := by
  refine ⟨⟨by decide, by decide⟩, by norm_num, by decide, ?_⟩
  rintro ⟨q, hq, hb⟩
  have hcomp : v3_length (v3_normalize
      ⟨F32.fin (3 / 2 ^ 76), F32.fin (3 / 2 ^ 76), F32.fin 0⟩).1 =
      F32.fin (4448731 / 4194304) := by decide
  rw [hcomp] at hq
  injection hq with h
  rw [← h] at hb
  rw [abs_of_nonneg (by norm_num)] at hb
  norm_num at hb


/-! ## Exact scaling laws: rounding commutes with scaling by powers of two
(within the normal range), which is what makes `reflect` invariant under
power-of-two rescaling of its normal vector. -/

/-- `qlog2` is determined by its bracketing property. -/
theorem qlog2_unique (a : ℚ) (m : ℤ) (ha : 0 < a)
    (h1 : qpow2 m ≤ a) (h2 : a < qpow2 (m + 1)) : qlog2 a = m := by
  obtain ⟨g1, g2⟩ := qlog2_spec a ha
  by_contra hne
  rcases lt_or_gt_of_ne hne with hlt | hgt
  · have := qpow2_mono (by omega : qlog2 a + 1 ≤ m)
    linarith
  · have := qpow2_mono (by omega : m + 1 ≤ qlog2 a)
    linarith

/-- `qlog2` shifts under multiplication by a power of two. -/
theorem qlog2_shift (a : ℚ) (k : ℤ) (ha : 0 < a) :
    qlog2 (qpow2 k * a) = k + qlog2 a := by
  obtain ⟨g1, g2⟩ := qlog2_spec a ha
  apply qlog2_unique _ _ (mul_pos (qpow2_pos k) ha)
  · rw [qpow2_add]
    exact mul_le_mul_of_nonneg_left g1 (qpow2_pos k).le
  · rw [show k + qlog2 a + 1 = k + (qlog2 a + 1) from by ring, qpow2_add]
    exact mul_lt_mul_of_pos_left g2 (qpow2_pos k)

/-- `roundVal` scales exactly under powers of two. -/
theorem roundVal_scale (a : ℚ) (k : ℤ) (ha : 0 < a) :
    roundVal (qpow2 k * a) = qpow2 k * roundVal a := by
  unfold roundVal
  rw [qlog2_shift a k ha]
  have harg : qpow2 k * a * qpow2 (23 - (k + qlog2 a)) = a * qpow2 (23 - qlog2 a) := by
    rw [mul_comm (qpow2 k) a, mul_assoc, ← qpow2_add]
    congr 2
    ring
  rw [harg, show k + qlog2 a - 23 = k + (qlog2 a - 23) from by ring, qpow2_add]
  ring

/-- In the normal range `roundPos` produces exactly `roundVal`. -/
theorem roundPos_form (a : ℚ) (hlb : 1 / 2 ^ 124 ≤ a) (hub : a ≤ 2 ^ 127) :
    roundPos a = F32.fin (roundVal a) := by
  have h0 : 0 < a := lt_of_lt_of_le (by norm_num) hlb
  have h149 := rne_err (a * 2 ^ 149)
  rw [abs_le] at h149
  set m : ℤ := rne (a * 2 ^ 149) with hm
  have hgoal : roundPos a =
      if m ≤ 2 ^ 24 then F32.fin ((m : ℚ) / 2 ^ 149)
      else (if (2 : ℚ) ^ 128 ≤ roundVal a then F32.inf false
            else F32.fin (roundVal a)) := rfl
  have hreg : ¬ m ≤ 2 ^ 24 := by
    intro hle
    have hmq : (m : ℚ) ≤ 2 ^ 24 := by exact_mod_cast hle
    linarith only [h149.1, hmq, hlb]
  obtain ⟨v, heq, _, _⟩ := roundPos_err a h0 hub
  rw [hgoal, if_neg hreg] at heq
  rw [hgoal, if_neg hreg]
  by_cases hov : (2 : ℚ) ^ 128 ≤ roundVal a
  · rw [if_pos hov] at heq
    exact absurd heq (by simp)
  · rw [if_neg hov]

/-- `roundQ` commutes with scaling by a power of two in the normal range. -/
theorem roundQ_scale (x : ℚ) (k : ℤ)
    (h1 : 1 / 2 ^ 124 ≤ |x|) (h2 : |x| ≤ 2 ^ 127)
    (h3 : 1 / 2 ^ 124 ≤ qpow2 k * |x|) (h4 : qpow2 k * |x| ≤ 2 ^ 127) :
    ∃ v : ℚ, roundQ x = F32.fin v ∧ roundQ (qpow2 k * x) = F32.fin (qpow2 k * v) := by
  have hx0 : x ≠ 0 := by
    intro h
    rw [h, abs_zero] at h1
    norm_num at h1
  rcases lt_or_gt_of_ne hx0 with hneg | hpos
  · rw [abs_of_neg hneg] at h1 h2 h3 h4
    have hsx : roundQ x = (roundPos (-x)).negF := by
      unfold roundQ
      rw [if_neg hx0, if_neg (by linarith)]
    have hkx0 : qpow2 k * x < 0 := mul_neg_of_pos_of_neg (qpow2_pos k) hneg
    have hsx' : roundQ (qpow2 k * x) = (roundPos (-(qpow2 k * x))).negF := by
      unfold roundQ
      rw [if_neg (ne_of_lt hkx0), if_neg (by linarith)]
    have e1 : roundPos (-x) = F32.fin (roundVal (-x)) := roundPos_form _ h1 h2
    have e2 : roundPos (-(qpow2 k * x)) = F32.fin (qpow2 k * roundVal (-x)) := by
      rw [show -(qpow2 k * x) = qpow2 k * (-x) from by ring,
        roundPos_form _ h3 h4, roundVal_scale (-x) k (by linarith)]
    refine ⟨-(roundVal (-x)), ?_, ?_⟩
    · rw [hsx, e1]; rfl
    · rw [hsx', e2]
      show F32.fin (-(qpow2 k * roundVal (-x))) = F32.fin (qpow2 k * -roundVal (-x))
      congr 1
      ring
  · rw [abs_of_pos hpos] at h1 h2 h3 h4
    have hsx : roundQ x = roundPos x := by
      unfold roundQ
      rw [if_neg hx0, if_pos hpos]
    have hkx : 0 < qpow2 k * x := mul_pos (qpow2_pos k) hpos
    have hsx' : roundQ (qpow2 k * x) = roundPos (qpow2 k * x) := by
      unfold roundQ
      rw [if_neg (ne_of_gt hkx), if_pos hkx]
    refine ⟨roundVal x, ?_, ?_⟩
    · rw [hsx]; exact roundPos_form x h1 h2
    · rw [hsx', roundPos_form _ h3 h4, roundVal_scale x k hpos]

/-- `roundQ` scaling, allowing the zero case. -/
theorem roundQ_scale_or_zero (a : ℚ) (k : ℤ)
    (h : a = 0 ∨ ((1 / 2 ^ 124 : ℚ) ≤ a ∧ a ≤ 2 ^ 127 ∧
      (1 / 2 ^ 124 : ℚ) ≤ qpow2 k * a ∧ qpow2 k * a ≤ 2 ^ 127)) :
    ∃ v : ℚ, roundQ a = F32.fin v ∧ roundQ (qpow2 k * a) = F32.fin (qpow2 k * v) := by
  rcases h with rfl | ⟨ha1, ha2, ha3, ha4⟩
  · refine ⟨0, ?_, ?_⟩
    · unfold roundQ
      rw [if_pos rfl]
    · rw [mul_zero]
      unfold roundQ
      rw [if_pos rfl]
  · have hpos : 0 < a := lt_of_lt_of_le (by norm_num) ha1
    exact roundQ_scale a k (by rwa [abs_of_pos hpos]) (by rwa [abs_of_pos hpos])
      (by rwa [abs_of_pos hpos]) (by rwa [abs_of_pos hpos])

/-- `rneSqrt` only depends on `a / Q²`. -/
theorem rneSqrt_congr (a Q a' Q' : ℚ) (h : a / (Q * Q) = a' / (Q' * Q')) :
    rneSqrt a Q = rneSqrt a' Q' := by
  unfold rneSqrt
  rw [h]

/-- `sqrtVal` scales exactly under powers of four. -/
theorem sqrtVal_scale (a : ℚ) (k : ℤ) (ha : 0 < a) :
    sqrtVal (qpow2 (2 * k) * a) = qpow2 k * sqrtVal a := by
  unfold sqrtVal
  rw [qlog2_shift a (2 * k) ha]
  have hfd : (2 * k + qlog2 a).fdiv 2 = k + (qlog2 a).fdiv 2 := by
    rw [Int.fdiv_eq_ediv _ (by norm_num), Int.fdiv_eq_ediv _ (by norm_num)]
    omega
  rw [hfd]
  have hQ : qpow2 (k + (qlog2 a).fdiv 2 - 23) =
      qpow2 k * qpow2 ((qlog2 a).fdiv 2 - 23) := by
    rw [← qpow2_add]; congr 1; ring
  rw [hQ]
  have h2k : qpow2 (2 * k) = qpow2 k * qpow2 k := by
    rw [← qpow2_add]; congr 1; ring
  have hn : rneSqrt (qpow2 (2 * k) * a)
      (qpow2 k * qpow2 ((qlog2 a).fdiv 2 - 23)) =
      rneSqrt a (qpow2 ((qlog2 a).fdiv 2 - 23)) := by
    apply rneSqrt_congr
    have hmul : (qpow2 k * qpow2 ((qlog2 a).fdiv 2 - 23)) *
        (qpow2 k * qpow2 ((qlog2 a).fdiv 2 - 23)) =
        qpow2 (2 * k) * (qpow2 ((qlog2 a).fdiv 2 - 23) *
          qpow2 ((qlog2 a).fdiv 2 - 23)) := by
      rw [h2k]; ring
    rw [hmul]
    exact mul_div_mul_left a _ (ne_of_gt (qpow2_pos (2 * k)))
  rw [hn]
  ring

/-- `sqrtPos` commutes with scaling by a power of four in the normal range. -/
theorem sqrtPos_scale (a : ℚ) (k : ℤ)
    (h3 : 1 / 2 ^ 240 ≤ qpow2 (2 * k) * a) (h4 : qpow2 (2 * k) * a ≤ 2 ^ 250)
    (ha : 0 < a) :
    sqrtPos (qpow2 (2 * k) * a) = F32.fin (qpow2 k * sqrtVal a) := by
  rw [(sqrtPos_form (qpow2 (2 * k) * a) h3 h4).1, sqrtVal_scale a k ha]


/-- `qpow2` at zero and the negation/cancellation laws. -/
theorem qpow2_zero : qpow2 0 = 1 := by
  rw [show (0 : ℤ) = ((0 : ℕ) : ℤ) from rfl, qpow2_coe_nat]
  norm_num

theorem qpow2_cancel (j : ℤ) : qpow2 j * qpow2 (-j) = 1 := by
  rw [← qpow2_add, show j + -j = 0 from by ring, qpow2_zero]

/-- The rounded squares and rounded sums of squares of a windowed,
not-all-zero vector, with the ranges of the intermediate sums. -/
theorem sumsq_bounds (x y z : ℚ)
    (hx : x = 0 ∨ ((1 / 2 ^ 60 : ℚ) ≤ |x| ∧ |x| ≤ 2 ^ 60))
    (hy : y = 0 ∨ ((1 / 2 ^ 60 : ℚ) ≤ |y| ∧ |y| ≤ 2 ^ 60))
    (hz : z = 0 ∨ ((1 / 2 ^ 60 : ℚ) ≤ |z| ∧ |z| ≤ 2 ^ 60))
    (hnz : ¬(x = 0 ∧ y = 0 ∧ z = 0)) :
    ∃ sx sy sz s1 Sv : ℚ,
      roundQ (x * x) = F32.fin sx ∧ roundQ (y * y) = F32.fin sy ∧
      roundQ (z * z) = F32.fin sz ∧
      roundQ (sx + sy) = F32.fin s1 ∧ roundQ (s1 + sz) = F32.fin Sv ∧
      (sx + sy = 0 ∨ ((1 / 2 ^ 124 : ℚ) ≤ sx + sy ∧ sx + sy ≤ 2 ^ 127)) ∧
      ((1 / 2 ^ 122 : ℚ) ≤ s1 + sz ∧ s1 + sz ≤ 2 ^ 127) ∧
      ((1 / 2 ^ 123 : ℚ) ≤ Sv ∧ Sv ≤ 2 ^ 126) := by
  obtain ⟨sx, hsxF, hsx0, hsxl, hsxh⟩ := sq_round_bound x hx
  obtain ⟨sy, hsyF, hsy0, hsyl, hsyh⟩ := sq_round_bound y hy
  obtain ⟨sz, hszF, hsz0, hszl, hszh⟩ := sq_round_bound z hz
  have hsxR : roundQ (x * x) = F32.fin sx := hsxF
  have hsyR : roundQ (y * y) = F32.fin sy := hsyF
  have hszR : roundQ (z * z) = F32.fin sz := hszF
  have hsq_lo : ∀ w : ℚ, ((1 / 2 ^ 60 : ℚ) ≤ |w| ∧ |w| ≤ 2 ^ 60) →
      (1 / 2 ^ 120 : ℚ) ≤ w ^ 2 ∧ w ^ 2 ≤ 2 ^ 120 := by
    intro w hw
    have h1 := pow_le_pow_left (by positivity : (0:ℚ) ≤ 1 / 2 ^ 60) hw.1 2
    have h2 := pow_le_pow_left (abs_nonneg w) hw.2 2
    rw [sq_abs] at h1 h2
    constructor
    · calc (1 / 2 ^ 120 : ℚ) = (1 / 2 ^ 60) ^ 2 := by norm_num
        _ ≤ w ^ 2 := h1
    · calc w ^ 2 ≤ (2 ^ 60) ^ 2 := h2
        _ = 2 ^ 120 := by norm_num
  have hzero_s : ∀ w sw : ℚ, w = 0 → 0 ≤ sw → sw ≤ w ^ 2 * (1 + 1 / 2 ^ 23) →
      sw = 0 := by
    intro w sw hw h0 hh
    rw [hw] at hh
    norm_num at hh
    linarith
  have hsxq := hsq_lo x
  have hsyq := hsq_lo y
  have hszq := hsq_lo z
  -- magnitude of each rounded square
  have hsx_ub : sx ≤ 2 ^ 121 := by
    rcases hx with h0 | hw
    · have := hzero_s x sx h0 hsx0 hsxh
      linarith
    · have := (hsxq hw).2
      linarith [hsxh]
  have hsy_ub : sy ≤ 2 ^ 121 := by
    rcases hy with h0 | hw
    · have := hzero_s y sy h0 hsy0 hsyh
      linarith
    · have := (hsyq hw).2
      linarith [hsyh]
  have hsz_ub : sz ≤ 2 ^ 121 := by
    rcases hz with h0 | hw
    · have := hzero_s z sz h0 hsz0 hszh
      linarith
    · have := (hszq hw).2
      linarith [hszh]
  -- the first sum
  have hxy_or : sx + sy = 0 ∨ ((1 / 2 ^ 124 : ℚ) ≤ sx + sy ∧ sx + sy ≤ 2 ^ 127) := by
    by_cases hxy : x = 0 ∧ y = 0
    · left
      have e1 := hzero_s x sx hxy.1 hsx0 hsxh
      have e2 := hzero_s y sy hxy.2 hsy0 hsyh
      linarith
    · right
      constructor
      · rcases hx with h0x | hwx
        · rcases hy with h0y | hwy
          · exact absurd ⟨h0x, h0y⟩ hxy
          · have := (hsyq hwy).1
            linarith [hsyl, hsx0]
        · have := (hsxq hwx).1
          linarith [hsxl, hsy0]
      · linarith [hsx_ub, hsy_ub]
  obtain ⟨s1, hs1F, hs10, hs1l, hs1h⟩ := add_round_bound sx sy hsx0 hsy0
    (by linarith [hsx_ub, hsy_ub])
  have hs1R : roundQ (sx + sy) = F32.fin s1 := hs1F
  have hs1_ub : s1 ≤ 2 ^ 123 := by linarith [hsx_ub, hsy_ub]
  -- the second sum
  have hsz_sum : (1 / 2 ^ 122 : ℚ) ≤ s1 + sz ∧ s1 + sz ≤ 2 ^ 127 := by
    constructor
    · by_cases hzz : z = 0
      · have hez := hzero_s z sz hzz hsz0 hszh
        have hxyn : ¬(x = 0 ∧ y = 0) := by
          intro ⟨h1, h2⟩
          exact hnz ⟨h1, h2, hzz⟩
        have hlow : (1 / 2 ^ 121 : ℚ) ≤ sx + sy := by
          rcases hx with h0x | hwx
          · rcases hy with h0y | hwy
            · exact absurd ⟨h0x, h0y⟩ hxyn
            · have := (hsyq hwy).1
              linarith [hsyl, hsx0]
          · have := (hsxq hwx).1
            linarith [hsxl, hsy0]
        linarith [hs1l]
      · have hwz : (1 / 2 ^ 60 : ℚ) ≤ |z| ∧ |z| ≤ 2 ^ 60 := by
          rcases hz with h0 | hw
          · exact absurd h0 hzz
          · exact hw
        have := (hszq hwz).1
        linarith [hszl, hs10]
    · linarith [hs1_ub, hsz_ub]
  obtain ⟨Sv, hSvF, hSv0, hSvl, hSvh⟩ := add_round_bound s1 sz hs10 hsz0
    (by linarith [hs1_ub, hsz_ub])
  have hSvR : roundQ (s1 + sz) = F32.fin Sv := hSvF
  refine ⟨sx, sy, sz, s1, Sv, hsxR, hsyR, hszR, hs1R, hSvR, hxy_or, hsz_sum, ?_, ?_⟩
  · linarith [hSvl, hsz_sum.1]
  · linarith [hSvh, hsz_sum.2]

/-- Scaling law for the rounded square of a windowed component. -/
theorem sq_scale (w : ℚ) (j : ℤ)
    (hw : w = 0 ∨ ((1 / 2 ^ 60 : ℚ) ≤ |w| ∧ |w| ≤ 2 ^ 60))
    (hw' : qpow2 j * w = 0 ∨
      ((1 / 2 ^ 60 : ℚ) ≤ |qpow2 j * w| ∧ |qpow2 j * w| ≤ 2 ^ 60)) :
    ∃ s : ℚ, roundQ (w * w) = F32.fin s ∧
      roundQ ((qpow2 j * w) * (qpow2 j * w)) = F32.fin (qpow2 (2 * j) * s) := by
  have h2j : qpow2 (2 * j) = qpow2 j * qpow2 j := by
    rw [← qpow2_add]; congr 1; ring
  have harg : (qpow2 j * w) * (qpow2 j * w) = qpow2 (2 * j) * (w * w) := by
    rw [h2j]; ring
  rw [harg]
  apply roundQ_scale_or_zero
  rcases hw with h0 | ⟨hlo, hhi⟩
  · left; rw [h0, mul_zero]
  · right
    have hw0 : w ≠ 0 := by
      intro h
      rw [h, abs_zero] at hlo
      norm_num at hlo
    have hsq : w * w = |w| * |w| := by
      rw [← abs_mul, abs_of_nonneg (mul_self_nonneg w)]
    have hw'' : (1 / 2 ^ 60 : ℚ) ≤ |qpow2 j * w| ∧ |qpow2 j * w| ≤ 2 ^ 60 := by
      rcases hw' with h0' | hok
      · exfalso
        rcases mul_eq_zero.mp h0' with h | h
        · exact absurd h (ne_of_gt (qpow2_pos j))
        · exact hw0 h
      · exact hok
    have hsq' : qpow2 (2 * j) * (w * w) = |qpow2 j * w| * |qpow2 j * w| := by
      rw [← abs_mul, abs_of_nonneg (mul_self_nonneg _), harg.symm]
    refine ⟨?_, ?_, ?_, ?_⟩
    · rw [hsq]
      calc (1 : ℚ) / 2 ^ 124 ≤ (1 / 2 ^ 60) * (1 / 2 ^ 60) := by norm_num
        _ ≤ |w| * |w| := mul_le_mul hlo hlo (by positivity) (abs_nonneg w)
    · rw [hsq]
      calc |w| * |w| ≤ 2 ^ 60 * 2 ^ 60 :=
            mul_le_mul hhi hhi (abs_nonneg w) (by positivity)
        _ ≤ 2 ^ 127 := by norm_num
    · rw [hsq']
      calc (1 : ℚ) / 2 ^ 124 ≤ (1 / 2 ^ 60) * (1 / 2 ^ 60) := by norm_num
        _ ≤ |qpow2 j * w| * |qpow2 j * w| :=
            mul_le_mul hw''.1 hw''.1 (by positivity) (abs_nonneg _)
    · rw [hsq']
      calc |qpow2 j * w| * |qpow2 j * w| ≤ 2 ^ 60 * 2 ^ 60 :=
            mul_le_mul hw''.2 hw''.2 (abs_nonneg _) (by positivity)
        _ ≤ 2 ^ 127 := by norm_num


/-- `v3_normalize` is invariant under exact scaling of the input by a power
of two, provided the original and the scaled components all lie in the
zero-or-window range. -/
theorem normalize_scale (x y z : ℚ) (j : ℤ)
    (hx : x = 0 ∨ ((1 / 2 ^ 60 : ℚ) ≤ |x| ∧ |x| ≤ 2 ^ 60))
    (hy : y = 0 ∨ ((1 / 2 ^ 60 : ℚ) ≤ |y| ∧ |y| ≤ 2 ^ 60))
    (hz : z = 0 ∨ ((1 / 2 ^ 60 : ℚ) ≤ |z| ∧ |z| ≤ 2 ^ 60))
    (hx' : qpow2 j * x = 0 ∨
      ((1 / 2 ^ 60 : ℚ) ≤ |qpow2 j * x| ∧ |qpow2 j * x| ≤ 2 ^ 60))
    (hy' : qpow2 j * y = 0 ∨
      ((1 / 2 ^ 60 : ℚ) ≤ |qpow2 j * y| ∧ |qpow2 j * y| ≤ 2 ^ 60))
    (hz' : qpow2 j * z = 0 ∨
      ((1 / 2 ^ 60 : ℚ) ≤ |qpow2 j * z| ∧ |qpow2 j * z| ≤ 2 ^ 60)) :
    v3_normalize ⟨F32.fin (qpow2 j * x), F32.fin (qpow2 j * y),
      F32.fin (qpow2 j * z)⟩ =
      v3_normalize ⟨F32.fin x, F32.fin y, F32.fin z⟩ := by
  by_cases hall : x = 0 ∧ y = 0 ∧ z = 0
  · obtain ⟨rfl, rfl, rfl⟩ := hall
    simp only [mul_zero]
  · have hzeq : ∀ w : ℚ, qpow2 j * w = 0 → w = 0 := by
      intro w h
      rcases mul_eq_zero.mp h with h | h
      · exact absurd h (ne_of_gt (qpow2_pos j))
      · exact h
    have hall' : ¬(qpow2 j * x = 0 ∧ qpow2 j * y = 0 ∧ qpow2 j * z = 0) := by
      intro hc
      exact hall ⟨hzeq x hc.1, hzeq y hc.2.1, hzeq z hc.2.2⟩
    obtain ⟨sx, hsx, hsx'⟩ := sq_scale x j hx hx'
    obtain ⟨sy, hsy, hsy'⟩ := sq_scale y j hy hy'
    obtain ⟨sz, hsz, hsz'⟩ := sq_scale z j hz hz'
    obtain ⟨sx0, sy0, sz0, s10, Sv0, e1, e2, e3, e4, e5, hor0, hs10, hSv0⟩ :=
      sumsq_bounds x y z hx hy hz hall
    obtain ⟨sx1, sy1, sz1, s11, Sv1, f1, f2, f3, f4, f5, hor1, hs11, hSv1⟩ :=
      sumsq_bounds (qpow2 j * x) (qpow2 j * y) (qpow2 j * z) hx' hy' hz' hall'
    have id1 : sx = sx0 := F32.fin.inj (hsx.symm.trans e1)
    subst id1
    have id2 : sy = sy0 := F32.fin.inj (hsy.symm.trans e2)
    subst id2
    have id3 : sz = sz0 := F32.fin.inj (hsz.symm.trans e3)
    subst id3
    have id1' : sx1 = qpow2 (2 * j) * sx := F32.fin.inj (f1.symm.trans hsx')
    subst id1'
    have id2' : sy1 = qpow2 (2 * j) * sy := F32.fin.inj (f2.symm.trans hsy')
    subst id2'
    have id3' : sz1 = qpow2 (2 * j) * sz := F32.fin.inj (f3.symm.trans hsz')
    subst id3'
    -- first sum
    have hsum1 : qpow2 (2 * j) * sx + qpow2 (2 * j) * sy =
        qpow2 (2 * j) * (sx + sy) := (mul_add _ _ _).symm
    rw [hsum1] at f4
    have horsum : sx + sy = 0 ∨ ((1 / 2 ^ 124 : ℚ) ≤ sx + sy ∧ sx + sy ≤ 2 ^ 127 ∧
        (1 / 2 ^ 124 : ℚ) ≤ qpow2 (2 * j) * (sx + sy) ∧
        qpow2 (2 * j) * (sx + sy) ≤ 2 ^ 127) := by
      rcases hor0 with h0 | ⟨hl, hh⟩
      · left; exact h0
      · right
        have hpos : 0 < qpow2 (2 * j) * (sx + sy) :=
          mul_pos (qpow2_pos _) (by linarith)
        rcases hor1 with h0' | ⟨hl', hh'⟩
        · rw [hsum1] at h0'
          exact absurd h0' (ne_of_gt hpos)
        · rw [hsum1] at hl' hh'
          exact ⟨hl, hh, hl', hh'⟩
    obtain ⟨s1, g4, g4'⟩ := roundQ_scale_or_zero (sx + sy) (2 * j) horsum
    have id4 : s1 = s10 := F32.fin.inj (g4.symm.trans e4)
    subst id4
    have id4' : s11 = qpow2 (2 * j) * s1 := F32.fin.inj (f4.symm.trans g4')
    subst id4'
    -- second sum
    have hsum2 : qpow2 (2 * j) * s1 + qpow2 (2 * j) * sz =
        qpow2 (2 * j) * (s1 + sz) := (mul_add _ _ _).symm
    rw [hsum2] at f5 hs11
    have hpos2 : 0 < s1 + sz := lt_of_lt_of_le (by norm_num) hs10.1
    have hpos2' : 0 < qpow2 (2 * j) * (s1 + sz) := mul_pos (qpow2_pos _) hpos2
    obtain ⟨Sv, g5, g5'⟩ := roundQ_scale (s1 + sz) (2 * j)
      (by rw [abs_of_pos hpos2]; linarith [hs10.1])
      (by rw [abs_of_pos hpos2]; exact hs10.2)
      (by rw [abs_of_pos hpos2]; linarith [hs11.1])
      (by rw [abs_of_pos hpos2]; exact hs11.2)
    have idSv : Sv = Sv0 := F32.fin.inj (g5.symm.trans e5)
    subst idSv
    have idSv' : Sv1 = qpow2 (2 * j) * Sv := F32.fin.inj (f5.symm.trans g5')
    subst idSv'
    -- the square roots
    have hSvpos : 0 < Sv := lt_of_lt_of_le (by norm_num) hSv0.1
    have hSvpos' : 0 < qpow2 (2 * j) * Sv := mul_pos (qpow2_pos _) hSvpos
    have hform := sqrtPos_form Sv (le_trans (by norm_num) hSv0.1)
      (le_trans hSv0.2 (by norm_num))
    obtain ⟨L, hLdef⟩ : ∃ t : ℚ, t = sqrtVal Sv := ⟨_, rfl⟩
    rw [← hLdef] at hform
    obtain ⟨hfin, hLpos, hbr1, hbr2⟩ := hform
    have h3' : (1 : ℚ) / 2 ^ 240 ≤ qpow2 (2 * j) * Sv :=
      le_trans (by norm_num) hSv1.1
    have h4' : qpow2 (2 * j) * Sv ≤ 2 ^ 250 := le_trans hSv1.2 (by norm_num)
    have hform' := sqrtPos_form (qpow2 (2 * j) * Sv) h3' h4'
    obtain ⟨L1, hL1def⟩ : ∃ t : ℚ, t = sqrtVal (qpow2 (2 * j) * Sv) := ⟨_, rfl⟩
    rw [← hL1def] at hform'
    obtain ⟨hfin', hL1pos, hbr1', hbr2'⟩ := hform'
    have idL : L1 = qpow2 j * L := by
      have h2 : L1 = qpow2 j * sqrtVal Sv :=
        F32.fin.inj (hfin'.symm.trans (sqrtPos_scale Sv j h3' h4' hSvpos))
      rw [← hLdef] at h2
      exact h2
    -- bounds on the two computed lengths
    have hLub : L ≤ 2 ^ 64 := by
      have h1 : (L * (1 - 1 / 2 ^ 24)) ^ 2 ≤ ((2 : ℚ) ^ 63) ^ 2 := by
        calc (L * (1 - 1 / 2 ^ 24)) ^ 2 ≤ Sv := hbr1
          _ ≤ 2 ^ 126 := hSv0.2
          _ = ((2 : ℚ) ^ 63) ^ 2 := by norm_num
      have h2 := le_of_sq_le_sq' (mul_nonneg hLpos.le (by norm_num))
        (by norm_num) h1
      linarith
    have hLlb : (1 : ℚ) / 2 ^ 63 ≤ L := by
      have h1 : ((1 : ℚ) / 2 ^ 62) ^ 2 ≤ (L * (1 + 1 / 2 ^ 24)) ^ 2 := by
        calc ((1 : ℚ) / 2 ^ 62) ^ 2 = 1 / 2 ^ 124 := by norm_num
          _ ≤ 1 / 2 ^ 123 := by norm_num
          _ ≤ Sv := hSv0.1
          _ ≤ (L * (1 + 1 / 2 ^ 24)) ^ 2 := hbr2
      have h2 := le_of_sq_le_sq' (by norm_num)
        (mul_nonneg hLpos.le (by norm_num)) h1
      linarith
    have hL'pos : 0 < qpow2 j * L := mul_pos (qpow2_pos j) hLpos
    have hL'ub : qpow2 j * L ≤ 2 ^ 64 := by
      rw [← idL]
      have h1 : (L1 * (1 - 1 / 2 ^ 24)) ^ 2 ≤ ((2 : ℚ) ^ 63) ^ 2 := by
        calc (L1 * (1 - 1 / 2 ^ 24)) ^ 2 ≤ qpow2 (2 * j) * Sv := hbr1'
          _ ≤ 2 ^ 126 := hSv1.2
          _ = ((2 : ℚ) ^ 63) ^ 2 := by norm_num
      have h2 := le_of_sq_le_sq' (mul_nonneg hL1pos.le (by norm_num))
        (by norm_num) h1
      linarith
    have hL'lb : (1 : ℚ) / 2 ^ 63 ≤ qpow2 j * L := by
      rw [← idL]
      have h1 : ((1 : ℚ) / 2 ^ 62) ^ 2 ≤ (L1 * (1 + 1 / 2 ^ 24)) ^ 2 := by
        calc ((1 : ℚ) / 2 ^ 62) ^ 2 = 1 / 2 ^ 124 := by norm_num
          _ ≤ 1 / 2 ^ 123 := by norm_num
          _ ≤ qpow2 (2 * j) * Sv := hSv1.1
          _ ≤ (L1 * (1 + 1 / 2 ^ 24)) ^ 2 := hbr2'
      have h2 := le_of_sq_le_sq' (by norm_num)
        (mul_nonneg hL1pos.le (by norm_num)) h1
      linarith
    -- the two computed lengths
    have hlen0 : v3_length ⟨F32.fin x, F32.fin y, F32.fin z⟩ = F32.fin L := by
      show ((((F32.fin x).mulF (F32.fin x)).addF
        ((F32.fin y).mulF (F32.fin y))).addF
        ((F32.fin z).mulF (F32.fin z))).sqrtF = F32.fin L
      rw [show (F32.fin x).mulF (F32.fin x) = F32.fin sx from e1,
        show (F32.fin y).mulF (F32.fin y) = F32.fin sy from e2,
        show (F32.fin z).mulF (F32.fin z) = F32.fin sz from e3,
        show (F32.fin sx).addF (F32.fin sy) = F32.fin s1 from g4,
        show (F32.fin s1).addF (F32.fin sz) = F32.fin Sv from g5]
      have hsq : (F32.fin Sv).sqrtF = if Sv < 0 then F32.nan
          else if Sv = 0 then F32.fin 0 else sqrtPos Sv := rfl
      rw [hsq, if_neg (not_lt.mpr hSvpos.le), if_neg hSvpos.ne']
      exact hfin
    have g4s : (F32.fin (qpow2 (2 * j) * sx)).addF (F32.fin (qpow2 (2 * j) * sy)) =
        F32.fin (qpow2 (2 * j) * s1) := by
      have hF : (F32.fin (qpow2 (2 * j) * sx)).addF (F32.fin (qpow2 (2 * j) * sy)) =
          roundQ (qpow2 (2 * j) * sx + qpow2 (2 * j) * sy) := rfl
      rw [hF, hsum1]
      exact g4'
    have g5s : (F32.fin (qpow2 (2 * j) * s1)).addF (F32.fin (qpow2 (2 * j) * sz)) =
        F32.fin (qpow2 (2 * j) * Sv) := by
      have hF : (F32.fin (qpow2 (2 * j) * s1)).addF (F32.fin (qpow2 (2 * j) * sz)) =
          roundQ (qpow2 (2 * j) * s1 + qpow2 (2 * j) * sz) := rfl
      rw [hF, hsum2]
      exact g5'
    have hlen1 : v3_length ⟨F32.fin (qpow2 j * x), F32.fin (qpow2 j * y),
        F32.fin (qpow2 j * z)⟩ = F32.fin (qpow2 j * L) := by
      show ((((F32.fin (qpow2 j * x)).mulF (F32.fin (qpow2 j * x))).addF
        ((F32.fin (qpow2 j * y)).mulF (F32.fin (qpow2 j * y)))).addF
        ((F32.fin (qpow2 j * z)).mulF (F32.fin (qpow2 j * z)))).sqrtF =
        F32.fin (qpow2 j * L)
      rw [show (F32.fin (qpow2 j * x)).mulF (F32.fin (qpow2 j * x)) =
            F32.fin (qpow2 (2 * j) * sx) from hsx',
        show (F32.fin (qpow2 j * y)).mulF (F32.fin (qpow2 j * y)) =
            F32.fin (qpow2 (2 * j) * sy) from hsy',
        show (F32.fin (qpow2 j * z)).mulF (F32.fin (qpow2 j * z)) =
            F32.fin (qpow2 (2 * j) * sz) from hsz',
        g4s, g5s]
      have hsq : (F32.fin (qpow2 (2 * j) * Sv)).sqrtF =
          if qpow2 (2 * j) * Sv < 0 then F32.nan
          else if qpow2 (2 * j) * Sv = 0 then F32.fin 0
          else sqrtPos (qpow2 (2 * j) * Sv) := rfl
      rw [hsq, if_neg (not_lt.mpr hSvpos'.le), if_neg hSvpos'.ne',
        sqrtPos_scale Sv j h3' h4' hSvpos, ← hLdef]
    -- the reciprocal scales exactly
    have hswap : qpow2 (-j) * (1 / L) = 1 / (qpow2 j * L) := by
      have hinv : (qpow2 j)⁻¹ = qpow2 (-j) :=
        inv_eq_of_mul_eq_one_right (qpow2_cancel j)
      rw [div_eq_mul_inv, div_eq_mul_inv, mul_inv, one_mul, one_mul, hinv]
    have hinvL_lb : (1 : ℚ) / 2 ^ 64 ≤ 1 / L :=
      one_div_le_one_div_of_le hLpos hLub
    have hinvL_ub : 1 / L ≤ 2 ^ 63 := by
      have h := one_div_le_one_div_of_le
        (show (0 : ℚ) < 1 / 2 ^ 63 by norm_num) hLlb
      rwa [one_div_one_div] at h
    have hinvL'_lb : (1 : ℚ) / 2 ^ 64 ≤ 1 / (qpow2 j * L) :=
      one_div_le_one_div_of_le hL'pos hL'ub
    have hinvL'_ub : 1 / (qpow2 j * L) ≤ 2 ^ 63 := by
      have h := one_div_le_one_div_of_le
        (show (0 : ℚ) < 1 / 2 ^ 63 by norm_num) hL'lb
      rwa [one_div_one_div] at h
    have habs1 : |1 / L| = 1 / L := abs_of_pos (by positivity)
    obtain ⟨W, hW, hW'⟩ := roundQ_scale (1 / L) (-j)
      (by rw [habs1]; linarith)
      (by rw [habs1]; linarith)
      (by rw [habs1, hswap]; linarith)
      (by rw [habs1, hswap]; linarith)
    have hdiv0 : (F32.fin 1).divF (F32.fin L) = F32.fin W := by
      have hd : (F32.fin 1).divF (F32.fin L) =
          if L = 0 then (if (1 : ℚ) = 0 then F32.nan else F32.inf ((1 : ℚ) < 0))
          else roundQ (1 / L) := rfl
      rw [hd, if_neg hLpos.ne']
      exact hW
    have hdiv1 : (F32.fin 1).divF (F32.fin (qpow2 j * L)) =
        F32.fin (qpow2 (-j) * W) := by
      have hd : (F32.fin 1).divF (F32.fin (qpow2 j * L)) =
          if qpow2 j * L = 0 then
            (if (1 : ℚ) = 0 then F32.nan else F32.inf ((1 : ℚ) < 0))
          else roundQ (1 / (qpow2 j * L)) := rfl
      rw [hd, if_neg hL'pos.ne', ← hswap]
      exact hW'
    have hc : ∀ w : ℚ, (F32.fin (qpow2 j * w)).mulF (F32.fin (qpow2 (-j) * W)) =
        (F32.fin w).mulF (F32.fin W) := by
      intro w
      show roundQ ((qpow2 j * w) * (qpow2 (-j) * W)) = roundQ (w * W)
      congr 1
      calc (qpow2 j * w) * (qpow2 (-j) * W) =
          (qpow2 j * qpow2 (-j)) * (w * W) := by ring
        _ = 1 * (w * W) := by rw [qpow2_cancel]
        _ = w * W := one_mul _
    rw [v3_normalize_succ ⟨F32.fin (qpow2 j * x), F32.fin (qpow2 j * y),
        F32.fin (qpow2 j * z)⟩ (qpow2 j * L) hlen1 hL'pos.ne',
      v3_normalize_succ ⟨F32.fin x, F32.fin y, F32.fin z⟩ L hlen0 hLpos.ne']
    show ((⟨(F32.fin (qpow2 j * x)).mulF ((F32.fin 1).divF (F32.fin (qpow2 j * L))),
        (F32.fin (qpow2 j * y)).mulF ((F32.fin 1).divF (F32.fin (qpow2 j * L))),
        (F32.fin (qpow2 j * z)).mulF ((F32.fin 1).divF (F32.fin (qpow2 j * L)))⟩ : V3),
        false) =
      ((⟨(F32.fin x).mulF ((F32.fin 1).divF (F32.fin L)),
        (F32.fin y).mulF ((F32.fin 1).divF (F32.fin L)),
        (F32.fin z).mulF ((F32.fin 1).divF (F32.fin L))⟩ : V3), false)
    rw [hdiv0, hdiv1, hc x, hc y, hc z]


/-- C8: the claim "reflect(v, n) equals reflect(v, k*n) for every scalar
k > 0" is false as stated (see `C8_counterexample`: k = 3 changes the
rounding of the normalization and hence the reflected components).  Amended
claim: reflection is invariant under rescaling the normal by a power of two
k = 2^j, provided the components of n and of k*n are zero or of magnitude
between `2^-60` and `2^60`: such a rescaling is exact in binary32 and
commutes with every rounding step of normalize. -/
theorem C8_reflect_scale (v : V3) (nx ny nz : ℚ) (j : ℤ)
    (hx : windowB (F32.fin nx) = true)
    (hy : windowB (F32.fin ny) = true)
    (hz : windowB (F32.fin nz) = true)
    (hx' : windowB (F32.fin (qpow2 j * nx)) = true)
    (hy' : windowB (F32.fin (qpow2 j * ny)) = true)
    (hz' : windowB (F32.fin (qpow2 j * nz)) = true) :
    v3_reflect v ⟨F32.fin (qpow2 j * nx), F32.fin (qpow2 j * ny),
      F32.fin (qpow2 j * nz)⟩ =
      v3_reflect v ⟨F32.fin nx, F32.fin ny, F32.fin nz⟩ := by
  have hw : ∀ q : ℚ, windowB (F32.fin q) = true →
      q = 0 ∨ ((1 / 2 ^ 60 : ℚ) ≤ |q| ∧ |q| ≤ 2 ^ 60) := by
    intro q h
    exact of_decide_eq_true h
  have hn := normalize_scale nx ny nz j (hw _ hx) (hw _ hy) (hw _ hz)
    (hw _ hx') (hw _ hy') (hw _ hz')
  unfold v3_reflect
  rw [hn]

/-- Witness: reflecting (1,2,3) about the normal (1,1,2) scaled by 2^2 gives
exactly the same result as reflecting about (1,1,2) itself. -/
theorem C8_reflect_scale_witness :
    v3_reflect ⟨F32.fin 1, F32.fin 2, F32.fin 3⟩
        ⟨F32.fin (qpow2 2 * 1), F32.fin (qpow2 2 * 1), F32.fin (qpow2 2 * 2)⟩ =
      v3_reflect ⟨F32.fin 1, F32.fin 2, F32.fin 3⟩
        ⟨F32.fin 1, F32.fin 1, F32.fin 2⟩ :=
  C8_reflect_scale ⟨F32.fin 1, F32.fin 2, F32.fin 3⟩ 1 1 2 2
    (by decide) (by decide) (by decide) (by decide) (by decide) (by decide)

/-- C8 counterexample to the claim as stated: k = 3 is a positive scalar and
3*(1,1,2) = (3,3,6) is exact in binary32, yet reflecting (1,2,3) about
(3,3,6) differs from reflecting it about (1,1,2): the normalization of the
scaled normal rounds differently. -/
theorem C8_counterexample :
    (0 : ℚ) < 3 ∧
    v3_reflect ⟨F32.fin 1, F32.fin 2, F32.fin 3⟩
        ⟨F32.fin (3 * 1), F32.fin (3 * 1), F32.fin (3 * 2)⟩ ≠
      v3_reflect ⟨F32.fin 1, F32.fin 2, F32.fin 3⟩
        ⟨F32.fin 1, F32.fin 1, F32.fin 2⟩ := by
  constructor
  · norm_num
  · decide

end V3Math
